import Mathlib

/-!
Verification of the in-memory membership graph engine (`grouper/graph.py`).

The Python code is shallowly embedded: dictionaries become insertion-ordered
association lists, `defaultdict(list)` becomes an association list with
create-on-read semantics, the networkx `DiGraph` becomes a node list plus an
edge list, and the networkx 1.x `single_source_shortest_path` BFS is embedded
as a fuel-driven loop that mirrors the library routine level by level.
Python exceptions (`TypeError` from subscripting the `None` graph before the
first load, `KeyError` from a missing dictionary key / missing BFS source)
become an `Except PyErr` result.
-/

namespace Grouper

/-- Python exceptions observable through the embedded functions:
`TypeError` (subscripting `None`) and `KeyError` (missing dict key;
this is the NotFound condition of the spec). -/
inductive PyErr where
  | typeError : PyErr
  | keyError : PyErr
deriving DecidableEq, Repr

instance {ε α : Type} [DecidableEq ε] [DecidableEq α] :
    DecidableEq (Except ε α) := fun a b =>
  match a, b with
  | .error e, .error e' =>
    decidable_of_iff (e = e') ⟨fun h => h ▸ rfl, fun h => by injection h⟩
  | .ok x, .ok y =>
    decidable_of_iff (x = y) ⟨fun h => h ▸ rfl, fun h => by injection h⟩
  | .error _, .ok _ => isFalse (fun h => Except.noConfusion h)
  | .ok _, .error _ => isFalse (fun h => Except.noConfusion h)

/-- A graph node `(kind, name)` with `kind` one of the literals
`"User"` / `"Group"` used in `graph.py`. -/
abbrev Node := String × String

/-- Keys of the Python dict `permissions_metadata`: the loader keys it by
group *name* (a `str`), while `_get_group_metadata` reads it with the group
*id* (an `int`).  Distinct Python types never compare equal as dict keys, so
the key space is the sum of the two. -/
inductive PyKey where
  | strKey : String → PyKey
  | intKey : Nat → PyKey
deriving DecidableEq, Repr

/-- The `MappedPermission` named tuple (imported from `grouper.models`, which is
not part of the sources).  Modelled from the spec: ordered list of
`(permission, argument, grantedOn)` granted to a group directly, tagged with
the granting group's name, exactly the four fields `graph.py` populates. -/
structure MappedPermission where
  permission : String
  argument : String
  groupname : String
  granted_on : Nat
deriving DecidableEq, Repr

/-- The `GROUP_EDGE_ROLES` vocabulary (imported from `grouper.models`, not in the sources).
Modelled from the spec: the role vocabulary is an ordered enumeration looked
up by index, "e.g., member, manager, owner, np-owner". -/
def GROUP_EDGE_ROLES : List String := ["member", "manager", "owner", "np-owner"]

/-- A public key row as surfaced by `user.my_public_keys()`;
`created_on` is kept as the already-stringified value. -/
structure PubKey where
  public_key : String
  fingerprint : String
  created_on : String
deriving DecidableEq, Repr

/-- Database rows read by `_get_user_metadata` / `_get_nodes_from_db`:
an enabled flag, identity and public keys of a `User` row. -/
structure DBUser where
  id : Nat
  username : String
  enabled : Bool
  public_keys : List PubKey
deriving DecidableEq, Repr

/-- A `Group` row: id, name and enabled flag. -/
structure DBGroup where
  id : Nat
  groupname : String
  enabled : Bool
deriving DecidableEq, Repr

/-- A `GroupEdge` row as filtered by `_get_edges_from_db`:
`member_type` is `0` for user members and `1` for group members,
`expiration` is an optional epoch instant compared against `now`. -/
structure DBEdge where
  group_id : Nat
  member_pk : Nat
  member_type : Nat
  active : Bool
  expiration : Option Nat
  role : Nat
deriving DecidableEq, Repr

/-- A permission grant as produced by the `Permission` ⋈ `PermissionMap`
join of `_get_permissions_metadata`: the permission name, the argument, the
id of the group the map row points at, and the grant time. -/
structure DBGrant where
  permission : String
  argument : String
  group_id : Nat
  granted_on : Nat
deriving DecidableEq, Repr

/-- The `Counter` row named `"updates"`: a count and its last-modified time
(already converted to epoch seconds as `strftime("%s")` does). -/
structure DBCounter where
  count : Nat
  last_modified : Nat
deriving DecidableEq, Repr

/-- A read-only view of the persisted state consumed by `update_from_db`,
together with the load-time instant `now` used for expiration filtering. -/
structure DB where
  counter : Option DBCounter
  users : List DBUser
  groups : List DBGroup
  edges : List DBEdge
  grants : List DBGrant
  now : Nat
deriving DecidableEq, Repr

/-! ### Python dictionaries as association lists -/

/-- Membership test for a key of an association list (Python `k in d`). -/
def hasDKey {α β : Type} [DecidableEq α] : List (α × β) → α → Bool
  | [], _ => false
  | e :: rest, k => decide (e.1 = k) || hasDKey rest k

/-- Python `d[k] = v`: replace the value of an existing key in place,
otherwise append the new binding (insertion order preserved). -/
def dictInsert {α β : Type} [DecidableEq α] : List (α × β) → α → β → List (α × β)
  | [], k, v => [(k, v)]
  | e :: rest, k, v => if e.1 = k then (k, v) :: rest else e :: dictInsert rest k v

/-- The `permissions_metadata` dictionary: `defaultdict(list)` keyed by
Python values that are either strings or ints. -/
abbrev PermDict := List (PyKey × List MappedPermission)

/-- Reading a `defaultdict(list)` value without the creation side effect:
the stored list, or `[]` when absent. -/
def ddGet : PermDict → PyKey → List MappedPermission
  | [], _ => []
  | e :: rest, k => if e.1 = k then e.2 else ddGet rest k

/-- The creation side effect of `defaultdict.__getitem__`: a missing key is
inserted with the default `[]`. -/
def ddTouch : PermDict → PyKey → PermDict
  | [], k => [(k, [])]
  | e :: rest, k => if e.1 = k then e :: rest else e :: ddTouch rest k

/-- Python `out[k].append(x)` on a `defaultdict(list)`. -/
def ddAppend : PermDict → PyKey → MappedPermission → PermDict
  | [], k, x => [(k, [x])]
  | e :: rest, k, x =>
    if e.1 = k then (e.1, e.2 ++ [x]) :: rest else e :: ddAppend rest k x

/-! ### The directed graph -/

/-- A networkx `DiGraph`: node list plus edge list `(src, dst, role)`.
`add_edges_from` stores the `{"role": r}` data of the last duplicate edge, so
role lookup takes the last matching edge. -/
structure Digraph where
  nodes : List Node
  edges : List (Node × Node × Nat)
deriving DecidableEq, Repr

/-- Successors of `v` (`G[v]` iteration), in edge-list order. -/
def Digraph.succs (G : Digraph) (v : Node) : List Node :=
  (G.edges.filter (fun e => decide (e.1 = v))).map (fun e => e.2.1)

/-- Python `G[u][v]["role"]`: the role data of edge `u → v`, last write winning
(`add_edges_from` overwrites the data of duplicate edges), `none` when the
edge is absent (Python raises `KeyError`). -/
def Digraph.edgeRole (G : Digraph) (u v : Node) : Option Nat :=
  (G.edges.reverse.find? (fun e => decide (e.1 = u ∧ e.2.1 = v))).map
    (fun e => e.2.2)

/-- The networkx `DiGraph.reverse()`: same nodes, every edge flipped. -/
def Digraph.reverse (G : Digraph) : Digraph :=
  { nodes := G.nodes, edges := G.edges.map (fun e => (e.2.1, e.1, e.2.2)) }

/-- Well-formedness: every edge endpoint is a node (networkx guarantees this
because `add_edges_from` inserts endpoints as nodes). -/
def Digraph.WF (G : Digraph) : Prop :=
  ∀ e ∈ G.edges, e.1 ∈ G.nodes ∧ e.2.1 ∈ G.nodes

/-! ### networkx 1.x `single_source_shortest_path`

The library routine is:
level-synchronous BFS over a `paths` dict mapping each discovered node to its
path from the source; `cutoff == 0` returns immediately, otherwise the loop
dequeues a whole level, extends paths to undiscovered successors, and stops
when the level is empty or the cutoff is reached.  `G[v]` raises `KeyError`
when `v` is not a node (so a missing source raises), and raises `TypeError`
when the graph is `None` (the pre-first-load state of `GroupGraph`). -/

/-- The `paths` dictionary of the BFS: discovered node ↦ path from source. -/
abbrev Paths := List (Node × List Node)

/-- Python `w in paths`. -/
def hasPath : Paths → Node → Bool
  | [], _ => false
  | e :: rest, v => decide (e.1 = v) || hasPath rest v

/-- Inner loop `for w in G[v]`: append undiscovered successors to `paths`
(with path `pv ++ [w]`) and to the next level. -/
def stepSuccs (paths nextLevel : Paths) (pv : List Node) :
    List Node → Paths × Paths
  | [] => (paths, nextLevel)
  | w :: ws =>
    if hasPath paths w then stepSuccs paths nextLevel pv ws
    else stepSuccs (paths ++ [(w, pv ++ [w])]) (nextLevel ++ [(w, pv ++ [w])]) pv ws

/-- Middle loop `for v in thislevel`: process every node of the current
level; `G[v]` raises `KeyError` when `v` is not a node. -/
def stepLevel (G : Digraph) : Paths → Paths → Paths → Except PyErr (Paths × Paths)
  | paths, nextLevel, [] => .ok (paths, nextLevel)
  | paths, nextLevel, (v, pv) :: rest =>
    if v ∈ G.nodes then
      let pr := stepSuccs paths nextLevel pv (G.succs v)
      stepLevel G pr.1 pr.2 rest
    else .error .keyError

/-- Python `cutoff is not None and cutoff <= level`. -/
def cutoffLe : Option Nat → Nat → Bool
  | none, _ => false
  | some c, l => decide (c ≤ l)

/-- The `while nextlevel` loop, fuel-driven.  The loop terminates on its own
within `|nodes| + 2` iterations (each productive iteration discovers a new
node); the fuel-exhaustion branch returns the accumulated paths and is proved
unreachable for the fuel supplied by `sssp`. -/
def ssspLoop (G : Digraph) (cutoff : Option Nat) :
    Nat → Nat → Paths → Paths → Except PyErr Paths
  | 0, _, paths, _ => .ok paths
  | fuel + 1, level, paths, nextLevel =>
    if nextLevel.isEmpty then .ok paths
    else
      match stepLevel G paths [] nextLevel with
      | .error e => .error e
      | .ok (paths', next') =>
        if cutoffLe cutoff (level + 1) then .ok paths'
        else ssspLoop G cutoff fuel (level + 1) paths' next'

/-- Full `single_source_shortest_path(G, s, cutoff)` for a possibly-`None` graph:
`cutoff == 0` returns `{s: [s]}` before the graph is ever touched; a `None`
graph then raises `TypeError`; otherwise the BFS loop runs. -/
def sssp (G? : Option Digraph) (s : Node) (cutoff : Option Nat) :
    Except PyErr Paths :=
  if cutoff = some 0 then .ok [(s, [s])]
  else
    match G? with
    | none => .error .typeError
    | some G => ssspLoop G cutoff (G.nodes.dedup.length + 2) 0 [(s, [s])] [(s, [s])]

/-! ### The GroupGraph state and loader -/

/-- The `user_metadata` value for one user. -/
structure UserMeta where
  public_keys : List PubKey
deriving DecidableEq, Repr

/-- One `{"permission": ..., "argument": ...}` entry of `group_metadata`. -/
structure GroupPermOut where
  permission : String
  argument : String
deriving DecidableEq, Repr

/-- The `group_metadata` value for one group. -/
structure GroupMeta where
  permissions : List GroupPermOut
deriving DecidableEq, Repr

/-- The mutable fields of a `GroupGraph` object (`__init__` fields; the
re-entrant lock has no observable content and is omitted). -/
structure GroupGraph where
  graph : Option Digraph
  rgraph : Option Digraph
  users : List String
  groups : List String
  checkpoint : Nat
  checkpoint_time : Nat
  user_metadata : List (String × UserMeta)
  group_metadata : List (String × GroupMeta)
  permissions_metadata : PermDict
deriving DecidableEq, Repr

/-- Python `GroupGraph.__init__`: `None` graphs, empty sets and dicts,
checkpoint `0`. -/
def GroupGraph.init : GroupGraph :=
  { graph := none, rgraph := none, users := [], groups := [],
    checkpoint := 0, checkpoint_time := 0,
    user_metadata := [], group_metadata := [], permissions_metadata := [] }

/-- Method `_get_checkpoint`: the `"updates"` counter row, or `(0, 0)` when the
counter does not exist yet. -/
def getCheckpoint (db : DB) : Nat × Nat :=
  match db.counter with
  | none => (0, 0)
  | some c => (c.count, c.last_modified)

/-- Method `_get_nodes_from_db`: one `("User", name)` node per enabled user and one
`("Group", name)` node per enabled group. -/
def nodesFromDb (db : DB) : List Node :=
  (db.users.filter (fun u => u.enabled)).map (fun u => (("User" : String), u.username)) ++
    (db.groups.filter (fun g => g.enabled)).map (fun g => (("Group" : String), g.groupname))

/-- Predicate `expiration > now or expiration is None`. -/
def notExpired (now : Nat) : Option Nat → Bool
  | none => true
  | some t => decide (now < t)

/-- Method `_get_edges_from_db`: the relational join emitting one
`(("Group", parent), (kind, member), role)` edge per active, non-expired
membership row between enabled endpoints; group members (`member_type = 1`)
first, then user members (`member_type = 0`), as in the source's union. -/
def edgesFromDb (db : DB) : List (Node × Node × Nat) :=
  (db.edges.flatMap (fun e =>
    if e.member_type = 1 then
      db.groups.flatMap (fun parent =>
        db.groups.flatMap (fun gm =>
          if parent.id = e.group_id ∧ gm.id = e.member_pk ∧ e.active = true ∧
              parent.enabled = true ∧ gm.enabled = true ∧
              notExpired db.now e.expiration = true then
            [((("Group" : String), parent.groupname), (("Group" : String), gm.groupname), e.role)]
          else []))
    else [])) ++
  (db.edges.flatMap (fun e =>
    if e.member_type = 0 then
      db.groups.flatMap (fun parent =>
        db.users.flatMap (fun um =>
          if parent.id = e.group_id ∧ um.id = e.member_pk ∧ e.active = true ∧
              parent.enabled = true ∧ um.enabled = true ∧
              notExpired db.now e.expiration = true then
            [((("Group" : String), parent.groupname), (("User" : String), um.username), e.role)]
          else []))
    else []))

/-- The snapshot graph: nodes from `_get_nodes_from_db`, edges from
`_get_edges_from_db` (every edge endpoint is enabled, hence already a node). -/
def graphFromDb (db : DB) : Digraph :=
  { nodes := nodesFromDb db, edges := edgesFromDb db }

/-- Method `_get_user_metadata`: enabled users mapped to their public keys. -/
def getUserMetadata (db : DB) : List (String × UserMeta) :=
  (db.users.filter (fun u => u.enabled)).foldl
    (fun out u => dictInsert out u.username ⟨u.public_keys⟩) []

/-- The loop of `_get_permissions_metadata`: append every grant to the
`defaultdict(list)` under the *name* of the granted group (a grant whose
group row is missing would crash the Python loader and is skipped here). -/
def pmLoop (groups : List DBGroup) : List DBGrant → PermDict → PermDict
  | [], acc => acc
  | gr :: rest, acc =>
    match groups.find? (fun g => decide (g.id = gr.group_id)) with
    | some g =>
      pmLoop groups rest
        (ddAppend acc (.strKey g.groupname)
          ⟨gr.permission, gr.argument, g.groupname, gr.granted_on⟩)
    | none => pmLoop groups rest acc

/-- Method `_get_permissions_metadata`. -/
def getPermissionsMetadata (db : DB) : PermDict :=
  pmLoop db.groups db.grants []

/-- The loop of `_get_group_metadata`: for every enabled group, read
`permissions_metadata[group.id]` — an *int* key into the *name*-keyed
defaultdict, which both always yields `[]` and inserts the int key as a side
effect; the mutated dict is threaded through. -/
def gmLoop : List DBGroup → List (String × GroupMeta) → PermDict →
    List (String × GroupMeta) × PermDict
  | [], out, pm => (out, pm)
  | g :: rest, out, pm =>
    gmLoop rest
      (dictInsert out g.groupname
        ⟨(ddGet (ddTouch pm (.intKey g.id)) (.intKey g.id)).map
          (fun p => ⟨p.permission, p.argument⟩)⟩)
      (ddTouch pm (.intKey g.id))

/-- Method `_get_group_metadata`. -/
def getGroupMetadata (db : DB) (pm : PermDict) :
    List (String × GroupMeta) × PermDict :=
  gmLoop (db.groups.filter (fun g => g.enabled)) [] pm

/-- Method `update_from_db`: re-read the checkpoint; when it equals the stored one,
return unchanged; otherwise rebuild the graph, its reverse, the user/group
sets and the three metadata maps, and install everything. -/
def GroupGraph.update_from_db (st : GroupGraph) (db : DB) : GroupGraph :=
  if (getCheckpoint db).1 = st.checkpoint then st
  else
    { graph := some (graphFromDb db),
      rgraph := some (graphFromDb db).reverse,
      users := ((graphFromDb db).nodes.filter
        (fun n => decide (n.1 = "User"))).map (fun n => n.2),
      groups := ((graphFromDb db).nodes.filter
        (fun n => decide (n.1 = "Group"))).map (fun n => n.2),
      checkpoint := (getCheckpoint db).1,
      checkpoint_time := (getCheckpoint db).2,
      user_metadata := getUserMetadata db,
      group_metadata := (getGroupMetadata db (getPermissionsMetadata db)).1,
      permissions_metadata := (getGroupMetadata db (getPermissionsMetadata db)).2 }

/-- Classmethod `GroupGraph.from_db`. -/
def GroupGraph.from_db (db : DB) : GroupGraph :=
  GroupGraph.init.update_from_db db

/-! ### Queries -/

/-- One annotated result entry: name, path of node names from origin to the
result, hop distance, numeric role and resolved role name.  (An
out-of-vocabulary role index, which Python would fault on, resolves to `""`;
no snapshot in this development carries one.) -/
structure PathEntry where
  name : String
  path : List String
  distance : Nat
  role : Nat
  rolename : String
deriving DecidableEq, Repr

/-- Build the result entry for node `m` discovered along `p` with role `r`. -/
def mkPathEntry (m : Node) (p : List Node) (r : Nat) : PathEntry :=
  { name := m.2, path := p.map (fun x => x.2), distance := p.length - 1,
    role := r, rolename := GROUP_EDGE_ROLES.getD r "" }

/-- The `get_group_details` result: the `users` / `groups` / `subgroups`
dictionaries. -/
structure GroupDetails where
  users : List (String × PathEntry)
  groups : List (String × PathEntry)
  subgroups : List (String × PathEntry)
deriving DecidableEq, Repr

/-- The `MEMBER_TYPE_MAP` dispatch: `"User"` entries go to `users`, `"Group"`
entries to `subgroups`; any other kind is a `KeyError`. -/
def memberInsert (data : GroupDetails) (kind name : String) (e : PathEntry) :
    Except PyErr GroupDetails :=
  if kind = "User" then .ok { data with users := dictInsert data.users name e }
  else if kind = "Group" then
    .ok { data with subgroups := dictInsert data.subgroups name e }
  else .error .keyError

/-- The forward loop of `get_group_details`: skip the origin, read the role
off the edge from the origin to `path[1]` (a missing edge is a `KeyError`),
and file the entry by member kind. -/
def forwardFold (G : Digraph) (origin : Node) :
    List (Node × List Node) → GroupDetails → Except PyErr GroupDetails
  | [], data => .ok data
  | (m, p) :: rest, data =>
    if m = origin then forwardFold G origin rest data
    else
      match G.edgeRole origin (p.getD 1 origin) with
      | none => .error .keyError
      | some role =>
        match memberInsert data m.1 m.2 (mkPathEntry m p role) with
        | .error e => .error e
        | .ok data' => forwardFold G origin rest data'

/-- The reverse loop of `get_group_details`: skip the origin, read the role
off the reverse edge from `path[-2]` to the parent, and record the parent in
the `groups` dictionary. -/
def reverseFold (rG : Digraph) (origin : Node) :
    List (Node × List Node) → GroupDetails → Except PyErr GroupDetails
  | [], data => .ok data
  | (parent, p) :: rest, data =>
    if parent = origin then reverseFold rG origin rest data
    else
      match rG.edgeRole (p.getD (p.length - 2) origin) parent with
      | none => .error .keyError
      | some role =>
        reverseFold rG origin rest
          { data with groups := dictInsert data.groups parent.2 (mkPathEntry parent p role) }

/-- The empty graph used only as the (unreachable) default when a fold runs
with a `None` graph, which can happen only for `cutoff = 0` result sets that
contain just the origin and touch no edge. -/
def emptyDigraph : Digraph := { nodes := [], edges := [] }

/-- Method `get_group_details(groupname, cutoff)`: forward BFS and reverse BFS from
`("Group", groupname)`, then the two annotation loops. -/
def GroupGraph.get_group_details (st : GroupGraph) (groupname : String)
    (cutoff : Option Nat) : Except PyErr GroupDetails :=
  match sssp st.graph ("Group", groupname) cutoff with
  | .error e => .error e
  | .ok paths =>
    match sssp st.rgraph ("Group", groupname) cutoff with
    | .error e => .error e
    | .ok rpaths =>
      match forwardFold (st.graph.getD emptyDigraph) ("Group", groupname) paths
          ⟨[], [], []⟩ with
      | .error e => .error e
      | .ok data =>
        reverseFold (st.rgraph.getD emptyDigraph) ("Group", groupname) rpaths data

/-- One `{"permission", "argument", "groupname"}` entry of the
`get_user_details` permission list. -/
structure PermOut where
  permission : String
  argument : String
  groupname : String
deriving DecidableEq, Repr

/-- The `get_user_details` result. -/
structure UserDetails where
  groups : List (String × PathEntry)
  permissions : List PermOut
deriving DecidableEq, Repr

/-- The loop of `get_user_details`: skip the origin; for each ancestor
record the entry (terminal-edge role, as in the reverse loop above) and
append that group's `permissions_metadata[parent_name]` — a defaultdict read
whose create-on-miss side effect is threaded through. -/
def userFold (rG : Digraph) (origin : Node) :
    List (Node × List Node) → List (String × PathEntry) →
      List MappedPermission → PermDict →
      Except PyErr (List (String × PathEntry) × List MappedPermission × PermDict)
  | [], gs, ps, pm => .ok (gs, ps, pm)
  | (parent, p) :: rest, gs, ps, pm =>
    if parent = origin then userFold rG origin rest gs ps pm
    else
      match rG.edgeRole (p.getD (p.length - 2) origin) parent with
      | none => .error .keyError
      | some role =>
        userFold rG origin rest
          (dictInsert gs parent.2 (mkPathEntry parent p role))
          (ps ++ ddGet pm (.strKey parent.2))
          (ddTouch pm (.strKey parent.2))

/-- Method `get_user_details(username, cutoff)`: reverse BFS from
`("User", username)`, then the annotation loop.  The possibly-mutated
`permissions_metadata` is returned as the post-state of the object. -/
def GroupGraph.get_user_details (st : GroupGraph) (username : String)
    (cutoff : Option Nat) : Except PyErr (UserDetails × GroupGraph) :=
  match sssp st.rgraph ("User", username) cutoff with
  | .error e => .error e
  | .ok rpaths =>
    match userFold (st.rgraph.getD emptyDigraph) ("User", username) rpaths [] []
        st.permissions_metadata with
    | .error e => .error e
    | .ok (gs, perms, pm') =>
      .ok
        ({ groups := gs,
           permissions := perms.map (fun mp => ⟨mp.permission, mp.argument, mp.groupname⟩) },
         { st with permissions_metadata := pm' })

/-! ### Reachability and snapshot invariants -/

/-- Reachability along directed edges, the specification of what an
unbounded BFS must discover. -/
inductive Reach (G : Digraph) (s : Node) : Node → Prop
  | refl : Reach G s s
  | step {u v : Node} : Reach G s u → v ∈ G.succs u → Reach G s v

/-- Invariants of every snapshot installed by `update_from_db`: the reverse
graph is the transpose of the forward graph, edges land on nodes, node kinds
are `"User"` / `"Group"`, every edge originates at a `"Group"` node, and
string-keyed `permissions_metadata` entries are tagged with their own key. -/
def GoodState (st : GroupGraph) : Prop :=
  ∀ G : Digraph, st.graph = some G →
    st.rgraph = some G.reverse ∧ G.WF ∧
    (∀ n ∈ G.nodes, n.1 = "User" ∨ n.1 = "Group") ∧
    (∀ e ∈ G.edges, e.1.1 = "Group") ∧
    (∀ g mp, mp ∈ ddGet st.permissions_metadata (.strKey g) → mp.groupname = g)

/-! ### Dictionary lemmas -/

theorem hasDKey_append {α β : Type} [DecidableEq α] (d d' : List (α × β)) (k : α) :
    hasDKey (d ++ d') k = (hasDKey d k || hasDKey d' k) := by
  induction d with
  | nil => simp [hasDKey]
  | cons e rest ih => simp [hasDKey, ih, Bool.or_assoc]

theorem hasDKey_of_mem {α β : Type} [DecidableEq α] {d : List (α × β)}
    {x : α × β} (h : x ∈ d) : hasDKey d x.1 = true := by
  induction d with
  | nil => cases h
  | cons e rest ih =>
    rcases List.mem_cons.mp h with h | h
    · subst h; simp [hasDKey]
    · simp [hasDKey, ih h]

theorem hasDKey_dictInsert {α β : Type} [DecidableEq α] (d : List (α × β)) (k k' : α)
    (v : β) : hasDKey (dictInsert d k v) k' = (hasDKey d k' || decide (k' = k)) := by
  induction d with
  | nil => simp [dictInsert, hasDKey, eq_comm]
  | cons e rest ih =>
    by_cases he : e.1 = k
    · subst he
      simp only [dictInsert, if_pos rfl, hasDKey]
      by_cases hkk : k' = e.1 <;> simp [hkk, eq_comm]
    · simp only [dictInsert, if_neg he, hasDKey, ih, Bool.or_assoc]

theorem mem_dictInsert {α β : Type} [DecidableEq α] {d : List (α × β)} {k k' : α}
    {v v' : β} (h : (k', v') ∈ dictInsert d k v) :
    (k', v') ∈ d ∨ (k' = k ∧ v' = v) := by
  induction d with
  | nil =>
    simp only [dictInsert, List.mem_singleton] at h
    right; injection h with h1 h2; exact ⟨h1, h2⟩
  | cons e rest ih =>
    by_cases he : e.1 = k
    · simp only [dictInsert, if_pos he, List.mem_cons] at h
      rcases h with h | h
      · right; injection h with h1 h2; exact ⟨h1, h2⟩
      · left; exact List.mem_cons_of_mem _ h
    · simp only [dictInsert, if_neg he, List.mem_cons] at h
      rcases h with h | h
      · left; exact h ▸ List.mem_cons_self _ _
      · rcases ih h with h' | h'
        · left; exact List.mem_cons_of_mem _ h'
        · right; exact h'

theorem ddGet_ddTouch (pm : PermDict) (k k' : PyKey) :
    ddGet (ddTouch pm k) k' = ddGet pm k' := by
  induction pm with
  | nil =>
    simp only [ddTouch, ddGet]
    by_cases hkk : k = k' <;> simp [hkk, ddGet]
  | cons e rest ih =>
    by_cases he : e.1 = k
    · simp [ddTouch, he]
    · simp only [ddTouch, if_neg he, ddGet]
      by_cases he' : e.1 = k'
      · rw [if_pos he', if_pos he']
      · rw [if_neg he', if_neg he', ih]

theorem hasDKey_ddTouch_of_hasDKey (pm : PermDict) (k k' : PyKey)
    (h : hasDKey pm k' = true) : hasDKey (ddTouch pm k) k' = true := by
  induction pm with
  | nil => simp [hasDKey] at h
  | cons e rest ih =>
    simp only [hasDKey, Bool.or_eq_true] at h
    by_cases he : e.1 = k
    · simpa [ddTouch, he, hasDKey] using h
    · rcases h with h | h
      · simp [ddTouch, he, hasDKey, h]
      · simp [ddTouch, he, hasDKey, ih h]

theorem mem_ddGet_ddAppend {pm : PermDict} {k k' : PyKey} {x mp : MappedPermission}
    (h : mp ∈ ddGet (ddAppend pm k x) k') :
    mp ∈ ddGet pm k' ∨ (k' = k ∧ mp = x) := by
  induction pm with
  | nil =>
    by_cases hkk : k = k'
    · subst hkk
      simp only [ddAppend] at h
      simp only [ddGet, if_pos rfl] at h
      exact Or.inr ⟨rfl, List.mem_singleton.mp h⟩
    · simp [ddAppend, ddGet, hkk] at h
  | cons e rest ih =>
    by_cases he : e.1 = k
    · simp only [ddAppend, if_pos he] at h
      simp only [ddGet] at h ⊢
      by_cases he' : e.1 = k'
      · rw [if_pos he'] at h
        rw [if_pos he']
        rcases List.mem_append.mp h with h | h
        · exact Or.inl h
        · exact Or.inr ⟨he' ▸ he ▸ rfl, List.mem_singleton.mp h⟩
      · rw [if_neg he'] at h
        rw [if_neg he']
        exact Or.inl h
    · simp only [ddAppend, if_neg he] at h
      simp only [ddGet] at h ⊢
      by_cases he' : e.1 = k'
      · rw [if_pos he'] at h
        rw [if_pos he']
        exact Or.inl h
      · rw [if_neg he'] at h
        rw [if_neg he']
        exact ih h

/-! ### Graph lemmas -/

theorem mem_succs {G : Digraph} {v w : Node} :
    w ∈ G.succs v ↔ ∃ r, (v, w, r) ∈ G.edges := by
  simp only [Digraph.succs, List.mem_map, List.mem_filter, decide_eq_true_eq]
  constructor
  · rintro ⟨e, ⟨he, rfl⟩, rfl⟩
    exact ⟨e.2.2, he⟩
  · rintro ⟨r, hr⟩
    exact ⟨(v, w, r), ⟨hr, rfl⟩, rfl⟩

theorem edgeRole_isSome_of_mem_succs {G : Digraph} {v w : Node}
    (h : w ∈ G.succs v) : ∃ r, G.edgeRole v w = some r := by
  obtain ⟨r, hr⟩ := mem_succs.mp h
  have : (G.edges.reverse.find? (fun e => decide (e.1 = v ∧ e.2.1 = w))).isSome := by
    rw [List.find?_isSome]
    exact ⟨(v, w, r), List.mem_reverse.mpr hr, by simp⟩
  obtain ⟨e, he⟩ := Option.isSome_iff_exists.mp this
  refine ⟨e.2.2, ?_⟩
  unfold Digraph.edgeRole
  rw [he]
  rfl

theorem edgeRole_mem {G : Digraph} {u v : Node} {r : Nat}
    (h : G.edgeRole u v = some r) : (u, v, r) ∈ G.edges := by
  unfold Digraph.edgeRole at h
  cases hf : G.edges.reverse.find? (fun e => decide (e.1 = u ∧ e.2.1 = v)) with
  | none => rw [hf] at h; cases h
  | some e =>
    rw [hf] at h
    have hmem := List.mem_reverse.mp (List.mem_of_find?_eq_some hf)
    have hp := List.find?_some hf
    simp only [decide_eq_true_eq] at hp
    obtain ⟨h1, h2⟩ := hp
    simp only [Option.map_some'] at h
    have : e = (u, v, r) := by
      obtain ⟨e1, e2, e3⟩ := e
      simp_all
    exact this ▸ hmem

theorem reverse_nodes (G : Digraph) : G.reverse.nodes = G.nodes := rfl

theorem reverse_WF {G : Digraph} (h : G.WF) : G.reverse.WF := by
  intro e he
  simp only [Digraph.reverse, List.mem_map] at he
  obtain ⟨e', he', rfl⟩ := he
  exact ⟨(h e' he').2, (h e' he').1⟩

theorem succs_reverse {G : Digraph} {v w : Node} :
    w ∈ G.reverse.succs v ↔ ∃ r, (w, v, r) ∈ G.edges := by
  rw [mem_succs]
  simp only [Digraph.reverse, List.mem_map]
  constructor
  · rintro ⟨r, ⟨a, b, c⟩, he, heq⟩
    injection heq with h1 h2
    injection h2 with h2a h2b
    subst h1; subst h2a; subst h2b
    exact ⟨_, he⟩
  · rintro ⟨r, hr⟩
    exact ⟨r, (w, v, r), hr, rfl⟩

theorem edgeRole_reverse (G : Digraph) (u v : Node) :
    G.reverse.edgeRole u v = G.edgeRole v u := by
  unfold Digraph.edgeRole Digraph.reverse
  simp only [← List.map_reverse, List.find?_map]
  have hfun :
      ((fun e : Node × Node × Nat => decide (e.1 = u ∧ e.2.1 = v)) ∘
        fun e : Node × Node × Nat => (e.2.1, e.1, e.2.2)) =
        fun e : Node × Node × Nat => decide (e.1 = v ∧ e.2.1 = u) := by
    funext e
    simp [Function.comp, and_comm]
  rw [hfun]
  cases G.edges.reverse.find? (fun e => decide (e.1 = v ∧ e.2.1 = u)) <;> simp

/-! ### Valid BFS entries -/

/-- What the BFS records for a discovered node `x.1`: a path that starts at
the source, ends at `x.1`, follows edges, and (unless it is the trivial
source entry) arrives through an explicit terminal edge `u → x.1`. -/
def ValidEntry (G : Digraph) (s : Node) (x : Node × List Node) : Prop :=
  x.2.head? = some s ∧ x.2.getLast? = some x.1 ∧
    x.2.Chain' (fun a b => b ∈ G.succs a) ∧
    (x.1 = s ∧ x.2 = [s] ∨ ∃ q u, x.2 = q ++ [u, x.1] ∧ x.1 ∈ G.succs u)

theorem validEntry_source (G : Digraph) (s : Node) : ValidEntry G s (s, [s]) := by
  refine ⟨rfl, rfl, List.chain'_singleton s, Or.inl ⟨rfl, rfl⟩⟩

theorem validEntry_extend {G : Digraph} {s v w : Node} {pv : List Node}
    (h : ValidEntry G s (v, pv)) (hw : w ∈ G.succs v) :
    ValidEntry G s (w, pv ++ [w]) := by
  obtain ⟨hhead, hlast, hchain, _⟩ := h
  dsimp only at hhead hlast hchain
  have hne : pv ≠ [] := by
    intro hnil; rw [hnil] at hhead; cases hhead
  obtain ⟨q, hq⟩ := List.getLast?_eq_some_iff.mp hlast
  refine ⟨?_, List.getLast?_concat pv, ?_, Or.inr ⟨q, v, ?_, hw⟩⟩
  · show (pv ++ [w]).head? = some s
    rw [List.head?_append_of_ne_nil pv hne, hhead]
  · show (pv ++ [w]).Chain' (fun a b => b ∈ G.succs a)
    rw [List.chain'_append]
    refine ⟨hchain, List.chain'_singleton w, ?_⟩
    intro x hx y hy
    simp only [List.head?_cons, Option.mem_def, Option.some.injEq] at hy
    rw [hlast] at hx
    simp only [Option.mem_def, Option.some.injEq] at hx
    subst hx; subst hy
    exact hw
  · show pv ++ [w] = q ++ [v, w]
    rw [hq, List.append_assoc]
    rfl

theorem validEntry_shape {G : Digraph} {s : Node} {x : Node × List Node}
    (h : ValidEntry G s x) (hne : x.1 ≠ s) :
    ∃ b tl, x.2 = s :: b :: tl ∧ b ∈ G.succs s := by
  obtain ⟨hhead, hlast, hchain, hdisj⟩ := h
  rcases hdisj with ⟨h1, _⟩ | ⟨q, u, hq, _⟩
  · exact absurd h1 hne
  · cases hp : x.2 with
    | nil => rw [hp] at hhead; cases hhead
    | cons a tl =>
      have ha : a = s := by
        rw [hp] at hhead; simpa using hhead
      subst ha
      cases htl : tl with
      | nil =>
        rw [hp, htl] at hlast
        simp only [List.getLast?_singleton, Option.some.injEq] at hlast
        exact absurd hlast.symm hne
      | cons b tl' =>
        refine ⟨b, tl', rfl, ?_⟩
        rw [hp, htl] at hchain
        exact (List.chain'_cons.mp hchain).1

theorem validEntry_len2 {G : Digraph} {s : Node} {x : Node × List Node}
    (h : ValidEntry G s x) (hne : x.1 ≠ s) : 2 ≤ x.2.length := by
  obtain ⟨b, tl, hp, _⟩ := validEntry_shape h hne
  rw [hp]
  simp only [List.length_cons]
  omega

/-- The penultimate node of a non-trivial valid entry, as `path[-2]`
computes it, together with the terminal edge into `x.1`. -/
theorem validEntry_penult {G : Digraph} {s : Node} {x : Node × List Node}
    (h : ValidEntry G s x) (hne : x.1 ≠ s) (d : Node) :
    ∃ u, x.2.getD (x.2.length - 2) d = u ∧ x.1 ∈ G.succs u := by
  obtain ⟨_, _, _, hdisj⟩ := h
  rcases hdisj with ⟨h1, _⟩ | ⟨q, u, hq, hsucc⟩
  · exact absurd h1 hne
  · refine ⟨u, ?_, hsucc⟩
    rw [hq]
    have hlen : (q ++ [u, x.1]).length = q.length + 2 := by
      simp [List.length_append]
    rw [hlen]
    simp only [Nat.add_sub_cancel]
    rw [List.getD_eq_getElem?_getD,
      List.getElem?_append_right (Nat.le_refl q.length)]
    simp

/-! ### BFS step lemmas -/

theorem hasPath_append (ps qs : Paths) (v : Node) :
    hasPath (ps ++ qs) v = (hasPath ps v || hasPath qs v) := by
  induction ps with
  | nil => simp [hasPath]
  | cons e rest ih => simp [hasPath, ih, Bool.or_assoc]

theorem hasPath_of_mem {ps : Paths} {x : Node × List Node} (h : x ∈ ps) :
    hasPath ps x.1 = true := by
  induction ps with
  | nil => cases h
  | cons e rest ih =>
    rcases List.mem_cons.mp h with h | h
    · subst h; simp [hasPath]
    · simp [hasPath, ih h]

theorem mem_of_hasPath {ps : Paths} {v : Node} (h : hasPath ps v = true) :
    ∃ p, (v, p) ∈ ps := by
  induction ps with
  | nil => simp [hasPath] at h
  | cons e rest ih =>
    simp only [hasPath, Bool.or_eq_true, decide_eq_true_eq] at h
    rcases h with h | h
    · exact ⟨e.2, by simp [← h]⟩
    · obtain ⟨p, hp⟩ := ih h
      exact ⟨p, List.mem_cons_of_mem _ hp⟩

theorem stepSuccs_spec (pv : List Node) (ws : List Node) :
    ∀ paths nextLevel : Paths, ∃ D,
      (stepSuccs paths nextLevel pv ws).1 = paths ++ D ∧
      (stepSuccs paths nextLevel pv ws).2 = nextLevel ++ D ∧
      (∀ x ∈ D, x.1 ∈ ws ∧ x.2 = pv ++ [x.1] ∧ hasPath paths x.1 = false) ∧
      (∀ w ∈ ws, hasPath (stepSuccs paths nextLevel pv ws).1 w = true) := by
  induction ws with
  | nil =>
    intro paths nextLevel
    exact ⟨[], by simp [stepSuccs], by simp [stepSuccs], fun x hx => absurd hx (List.not_mem_nil x), fun w hw => absurd hw (List.not_mem_nil w)⟩
  | cons w ws ih =>
    intro paths nextLevel
    by_cases hw : hasPath paths w = true
    · obtain ⟨D, h1, h2, h3, h4⟩ := ih paths nextLevel
      refine ⟨D, ?_, ?_, ?_, ?_⟩
      · simpa [stepSuccs, hw] using h1
      · simpa [stepSuccs, hw] using h2
      · exact fun x hx => ⟨List.mem_cons_of_mem _ (h3 x hx).1, (h3 x hx).2.1, (h3 x hx).2.2⟩
      · intro w' hw'
        rcases List.mem_cons.mp hw' with h | h
        · subst h
          have : (stepSuccs paths nextLevel pv (w' :: ws)) = stepSuccs paths nextLevel pv ws := by
            simp [stepSuccs, hw]
          rw [this, h1, hasPath_append, hw]
          rfl
        · simpa [stepSuccs, hw] using h4 w' h
    · have hw' : hasPath paths w = false := by
        cases hpw : hasPath paths w
        · rfl
        · exact absurd hpw hw
      obtain ⟨D, h1, h2, h3, h4⟩ :=
        ih (paths ++ [(w, pv ++ [w])]) (nextLevel ++ [(w, pv ++ [w])])
      have hstep : stepSuccs paths nextLevel pv (w :: ws) =
          stepSuccs (paths ++ [(w, pv ++ [w])]) (nextLevel ++ [(w, pv ++ [w])]) pv ws := by
        simp [stepSuccs, hw']
      refine ⟨(w, pv ++ [w]) :: D, ?_, ?_, ?_, ?_⟩
      · rw [hstep, h1, List.append_assoc]
        rfl
      · rw [hstep, h2, List.append_assoc]
        rfl
      · intro x hx
        rcases List.mem_cons.mp hx with h | h
        · subst h
          exact ⟨List.mem_cons_self _ _, rfl, hw'⟩
        · obtain ⟨hx1, hx2, hx3⟩ := h3 x h
          refine ⟨List.mem_cons_of_mem _ hx1, hx2, ?_⟩
          rw [hasPath_append] at hx3
          exact (Bool.or_eq_false_iff.mp hx3).1
      · intro w' hmem
        rcases List.mem_cons.mp hmem with h | h
        · subst h
          rw [hstep, h1, hasPath_append, hasPath_append]
          have : hasPath [(w', pv ++ [w'])] w' = true := by simp [hasPath]
          rw [this]
          simp
        · rw [hstep]
          exact h4 w' h

theorem stepLevel_shape (G : Digraph) (lvl : Paths) :
    ∀ paths nextLevel p' n',
      stepLevel G paths nextLevel lvl = .ok (p', n') →
      ∃ D, p' = paths ++ D ∧ n' = nextLevel ++ D ∧
        (∀ x ∈ D, hasPath paths x.1 = false ∧
          ∃ y ∈ lvl, x.1 ∈ G.succs y.1 ∧ x.2 = y.2 ++ [x.1]) := by
  induction lvl with
  | nil =>
    intro paths nextLevel p' n' h
    simp only [stepLevel] at h
    injection h with h
    injection h with h1 h2
    exact ⟨[], by simp [← h1], by simp [← h2], by simp⟩
  | cons y rest ih =>
    intro paths nextLevel p' n' h
    obtain ⟨v, pv⟩ := y
    simp only [stepLevel] at h
    by_cases hv : v ∈ G.nodes
    · rw [if_pos hv] at h
      obtain ⟨D1, hs1, hs2, hs3, _⟩ := stepSuccs_spec pv (G.succs v) paths nextLevel
      obtain ⟨D2, h1, h2, h3⟩ := ih _ _ _ _ h
      refine ⟨D1 ++ D2, ?_, ?_, ?_⟩
      · rw [h1, hs1, List.append_assoc]
      · rw [h2, hs2, List.append_assoc]
      · intro x hx
        rcases List.mem_append.mp hx with hx | hx
        · obtain ⟨hx1, hx2, hx3⟩ := hs3 x hx
          exact ⟨hx3, (v, pv), List.mem_cons_self _ _, hx1, hx2⟩
        · obtain ⟨hfalse, z, hz, hz2, hz3⟩ := h3 x hx
          rw [hs1, hasPath_append] at hfalse
          exact ⟨(Bool.or_eq_false_iff.mp hfalse).1, z,
            List.mem_cons_of_mem _ hz, hz2, hz3⟩
    · rw [if_neg hv] at h
      cases h

theorem stepLevel_ok (G : Digraph) (lvl : Paths)
    (h : ∀ x ∈ lvl, x.1 ∈ G.nodes) :
    ∀ paths nextLevel, ∃ pn, stepLevel G paths nextLevel lvl = .ok pn := by
  induction lvl with
  | nil => intro paths nextLevel; exact ⟨(paths, nextLevel), rfl⟩
  | cons y rest ih =>
    intro paths nextLevel
    obtain ⟨v, pv⟩ := y
    have hv : v ∈ G.nodes := h (v, pv) (List.mem_cons_self _ _)
    obtain ⟨pn, hpn⟩ := ih (fun x hx => h x (List.mem_cons_of_mem _ hx))
      (stepSuccs paths nextLevel pv (G.succs v)).1
      (stepSuccs paths nextLevel pv (G.succs v)).2
    exact ⟨pn, by simp only [stepLevel, if_pos hv]; exact hpn⟩

theorem stepLevel_closure (G : Digraph) (lvl : Paths) :
    ∀ paths nextLevel p' n',
      stepLevel G paths nextLevel lvl = .ok (p', n') →
      ∀ y ∈ lvl, ∀ w ∈ G.succs y.1, hasPath p' w = true := by
  induction lvl with
  | nil =>
    intro paths nextLevel p' n' h y hy
    cases hy
  | cons z rest ih =>
    intro paths nextLevel p' n' h y hy w hw
    obtain ⟨v, pv⟩ := z
    simp only [stepLevel] at h
    by_cases hv : v ∈ G.nodes
    · rw [if_pos hv] at h
      rcases List.mem_cons.mp hy with hyz | hyrest
      · obtain ⟨D1, hs1, _, _, hs4⟩ := stepSuccs_spec pv (G.succs v) paths nextLevel
        obtain ⟨D2, h1, _, _⟩ := stepLevel_shape G rest _ _ _ _ h
        subst hyz
        have := hs4 w hw
        rw [h1, hasPath_append, this]
        rfl
      · exact ih _ _ _ _ h y hyrest w hw
    · rw [if_neg hv] at h
      cases h

/-! ### BFS loop lemmas -/

theorem ssspLoop_succ (G : Digraph) (cutoff : Option Nat) (fuel level : Nat)
    (paths nextLevel : Paths) :
    ssspLoop G cutoff (fuel + 1) level paths nextLevel =
      if nextLevel.isEmpty then .ok paths
      else
        match stepLevel G paths [] nextLevel with
        | .error e => .error e
        | .ok (paths', next') =>
          if cutoffLe cutoff (level + 1) then .ok paths'
          else ssspLoop G cutoff fuel (level + 1) paths' next' := rfl

theorem ssspLoop_step (G : Digraph) (cutoff : Option Nat) (fuel level : Nat)
    (paths nextLevel p' n' : Paths)
    (hne : nextLevel.isEmpty = false)
    (hstep : stepLevel G paths [] nextLevel = .ok (p', n')) :
    ssspLoop G cutoff (fuel + 1) level paths nextLevel =
      if cutoffLe cutoff (level + 1) then .ok p'
      else ssspLoop G cutoff fuel (level + 1) p' n' := by
  rw [ssspLoop_succ, hne, hstep]
  rfl

theorem ssspLoop_step_err (G : Digraph) (cutoff : Option Nat) (fuel level : Nat)
    (paths nextLevel : Paths) (e : PyErr)
    (hne : nextLevel.isEmpty = false)
    (hstep : stepLevel G paths [] nextLevel = .error e) :
    ssspLoop G cutoff (fuel + 1) level paths nextLevel = .error e := by
  rw [ssspLoop_succ, hne, hstep]
  rfl

theorem ssspLoop_nil (G : Digraph) (cutoff : Option Nat) (fuel level : Nat)
    (paths : Paths) (h : 1 ≤ fuel) :
    ssspLoop G cutoff fuel level paths [] = .ok paths := by
  cases fuel with
  | zero => omega
  | succ fuel => rw [ssspLoop_succ]; rfl

theorem ssspLoop_mono (G : Digraph) (cutoff : Option Nat) :
    ∀ (fuel level : Nat) (paths nextLevel ps : Paths),
      ssspLoop G cutoff fuel level paths nextLevel = .ok ps →
      ∃ D, ps = paths ++ D := by
  intro fuel
  induction fuel with
  | zero =>
    intro level paths nextLevel ps h
    injection h with h
    exact ⟨[], by simp [← h]⟩
  | succ fuel ih =>
    intro level paths nextLevel ps h
    by_cases hne : nextLevel.isEmpty
    · rw [ssspLoop_succ, if_pos hne] at h
      injection h with h
      exact ⟨[], by simp [← h]⟩
    · have hne' : nextLevel.isEmpty = false := by
        cases hb : nextLevel.isEmpty
        · rfl
        · exact absurd hb hne
      cases hstep : stepLevel G paths [] nextLevel with
      | error e =>
        rw [ssspLoop_step_err G cutoff fuel level paths nextLevel e hne' hstep] at h
        cases h
      | ok pn =>
        obtain ⟨p', n'⟩ := pn
        rw [ssspLoop_step G cutoff fuel level paths nextLevel p' n' hne' hstep] at h
        obtain ⟨D, hD, _, _⟩ := stepLevel_shape G nextLevel paths [] p' n' hstep
        by_cases hcut : cutoffLe cutoff (level + 1)
        · rw [if_pos hcut] at h
          injection h with h
          exact ⟨D, by rw [← h, hD]⟩
        · rw [if_neg hcut] at h
          obtain ⟨D', hD'⟩ := ih _ _ _ _ h
          exact ⟨D ++ D', by rw [hD', hD, List.append_assoc]⟩

theorem ssspLoop_entries (G : Digraph) (s : Node) (cutoff : Option Nat) :
    ∀ (fuel level : Nat) (paths nextLevel ps : Paths),
      (∀ x ∈ paths, ValidEntry G s x) →
      (∀ x ∈ nextLevel, ValidEntry G s x) →
      ssspLoop G cutoff fuel level paths nextLevel = .ok ps →
      ∀ x ∈ ps, ValidEntry G s x := by
  intro fuel
  induction fuel with
  | zero =>
    intro level paths nextLevel ps hp _ h
    injection h with h
    exact h ▸ hp
  | succ fuel ih =>
    intro level paths nextLevel ps hp hn h
    by_cases hne : nextLevel.isEmpty
    · rw [ssspLoop_succ, if_pos hne] at h
      injection h with h
      exact h ▸ hp
    · have hne' : nextLevel.isEmpty = false := by
        cases hb : nextLevel.isEmpty
        · rfl
        · exact absurd hb hne
      cases hstep : stepLevel G paths [] nextLevel with
      | error e =>
        rw [ssspLoop_step_err G cutoff fuel level paths nextLevel e hne' hstep] at h
        cases h
      | ok pn =>
        obtain ⟨p', n'⟩ := pn
        rw [ssspLoop_step G cutoff fuel level paths nextLevel p' n' hne' hstep] at h
        obtain ⟨D, hD1, hD2, hD3⟩ := stepLevel_shape G nextLevel paths [] p' n' hstep
        simp only [List.nil_append] at hD2
        have hDval : ∀ x ∈ D, ValidEntry G s x := by
          intro x hx
          obtain ⟨x1, x2⟩ := x
          obtain ⟨_, y, hy, hsucc, hext⟩ := hD3 (x1, x2) hx
          dsimp only at hext
          rw [hext]
          exact validEntry_extend (hn y hy) hsucc
        have hp' : ∀ x ∈ p', ValidEntry G s x := by
          intro x hx
          rw [hD1] at hx
          rcases List.mem_append.mp hx with hx | hx
          · exact hp x hx
          · exact hDval x hx
        by_cases hcut : cutoffLe cutoff (level + 1)
        · rw [if_pos hcut] at h
          injection h with h
          exact h ▸ hp'
        · rw [if_neg hcut] at h
          exact ih _ _ _ _ hp' (hD2 ▸ hDval) h

theorem ssspLoop_len (G : Digraph) (c : Nat) :
    ∀ (fuel level : Nat) (paths nextLevel ps : Paths),
      level < c →
      (∀ x ∈ paths, x.2.length ≤ level + 1) →
      (∀ x ∈ nextLevel, x.2.length ≤ level + 1) →
      ssspLoop G (some c) fuel level paths nextLevel = .ok ps →
      ∀ x ∈ ps, x.2.length ≤ c + 1 := by
  intro fuel
  induction fuel with
  | zero =>
    intro level paths nextLevel ps hlt hp _ h
    injection h with h
    intro x hx
    exact le_trans (hp x (h ▸ hx)) (by omega)
  | succ fuel ih =>
    intro level paths nextLevel ps hlt hp hn h
    by_cases hne : nextLevel.isEmpty
    · rw [ssspLoop_succ, if_pos hne] at h
      injection h with h
      intro x hx
      exact le_trans (hp x (h ▸ hx)) (by omega)
    · have hne' : nextLevel.isEmpty = false := by
        cases hb : nextLevel.isEmpty
        · rfl
        · exact absurd hb hne
      cases hstep : stepLevel G paths [] nextLevel with
      | error e =>
        rw [ssspLoop_step_err G (some c) fuel level paths nextLevel e hne' hstep] at h
        cases h
      | ok pn =>
        obtain ⟨p', n'⟩ := pn
        rw [ssspLoop_step G (some c) fuel level paths nextLevel p' n' hne' hstep] at h
        obtain ⟨D, hD1, hD2, hD3⟩ := stepLevel_shape G nextLevel paths [] p' n' hstep
        simp only [List.nil_append] at hD2
        have hDlen : ∀ x ∈ D, x.2.length ≤ level + 2 := by
          intro x hx
          obtain ⟨_, y, hy, _, hext⟩ := hD3 x hx
          rw [hext]
          simp only [List.length_append, List.length_singleton]
          exact Nat.add_le_add_right (hn y hy) 1
        have hp' : ∀ x ∈ p', x.2.length ≤ level + 2 := by
          intro x hx
          rw [hD1] at hx
          rcases List.mem_append.mp hx with hx | hx
          · exact le_trans (hp x hx) (by omega)
          · exact hDlen x hx
        by_cases hcut : cutoffLe (some c) (level + 1)
        · rw [if_pos hcut] at h
          injection h with h
          simp only [cutoffLe, decide_eq_true_eq] at hcut
          have hceq : c = level + 1 := by omega
          intro x hx
          exact le_trans (hp' x (h ▸ hx)) (by omega)
        · rw [if_neg hcut] at h
          simp only [cutoffLe, decide_eq_true_eq] at hcut
          exact ih (level + 1) p' n' ps (by omega) hp' (hD2 ▸ hDlen) h

theorem length_filter_le_of_imp {α : Type} (p q : α → Bool) :
    ∀ l : List α, (∀ a ∈ l, q a = true → p a = true) →
      (l.filter q).length ≤ (l.filter p).length := by
  intro l
  induction l with
  | nil => intro _; simp
  | cons b rest ih =>
    intro himp
    have ihr := ih (fun a ha => himp a (List.mem_cons_of_mem _ ha))
    by_cases hq : q b = true
    · have hp : p b = true := himp b (List.mem_cons_self _ _) hq
      simp only [List.filter_cons, hq, hp, if_true, List.length_cons]
      omega
    · have hq' : q b = false := by
        cases h : q b
        · rfl
        · exact absurd h hq
      by_cases hp : p b = true
      · simp only [List.filter_cons, hq', hp, if_true, Bool.false_eq_true,
          if_false, List.length_cons]
        omega
      · have hp' : p b = false := by
          cases h : p b
          · rfl
          · exact absurd h hp
        simp only [List.filter_cons, hq', hp', Bool.false_eq_true, if_false]
        exact ihr

theorem length_filter_lt_of_imp {α : Type} (p q : α → Bool) :
    ∀ l : List α, (∀ a ∈ l, q a = true → p a = true) →
      ∀ a : α, a ∈ l → p a = true → q a = false →
      (l.filter q).length < (l.filter p).length := by
  intro l
  induction l with
  | nil => intro _ a ha; cases ha
  | cons b rest ih =>
    intro himp a ha hpa hqa
    have himp' := fun x hx => himp x (List.mem_cons_of_mem _ hx)
    rcases List.mem_cons.mp ha with hab | ha'
    · subst hab
      have hle := length_filter_le_of_imp p q rest himp'
      simp only [List.filter_cons, hqa, hpa, if_true, Bool.false_eq_true,
        if_false, List.length_cons]
      omega
    · by_cases hqb : q b = true
      · have hpb : p b = true := himp b (List.mem_cons_self _ _) hqb
        simp only [List.filter_cons, hqb, hpb, if_true, List.length_cons]
        exact Nat.succ_lt_succ (ih himp' a ha' hpa hqa)
      · have hqb' : q b = false := by
          cases h : q b
          · rfl
          · exact absurd h hqb
        by_cases hpb : p b = true
        · simp only [List.filter_cons, hqb', hpb, if_true, Bool.false_eq_true,
            if_false, List.length_cons]
          exact Nat.lt_succ_of_lt (ih himp' a ha' hpa hqa)
        · have hpb' : p b = false := by
            cases h : p b
            · rfl
            · exact absurd h hpb
          simp only [List.filter_cons, hqb', hpb', Bool.false_eq_true, if_false]
          exact ih himp' a ha' hpa hqa

theorem ssspLoop_complete (G : Digraph) (hWF : G.WF) :
    ∀ (fuel level : Nat) (paths nextLevel : Paths),
      (∀ x ∈ nextLevel, x.1 ∈ G.nodes) →
      (∀ v, hasPath paths v = true →
        (∃ x ∈ nextLevel, x.1 = v) ∨ ∀ w ∈ G.succs v, hasPath paths w = true) →
      (G.nodes.dedup.filter (fun v => ! hasPath paths v)).length + 2 ≤ fuel →
      ∃ ps, ssspLoop G none fuel level paths nextLevel = .ok ps ∧
        ∀ v, hasPath ps v = true → ∀ w ∈ G.succs v, hasPath ps w = true := by
  intro fuel
  induction fuel with
  | zero =>
    intro level paths nextLevel _ _ hfuel
    omega
  | succ fuel ih =>
    intro level paths nextLevel hnodes hclosure hfuel
    by_cases hne : nextLevel.isEmpty
    · refine ⟨paths, by rw [ssspLoop_succ, if_pos hne], ?_⟩
      intro v hv w hw
      rcases hclosure v hv with ⟨x, hx, _⟩ | hcl
      · rw [List.isEmpty_iff.mp hne] at hx
        cases hx
      · exact hcl w hw
    · have hne' : nextLevel.isEmpty = false := by
        cases hb : nextLevel.isEmpty
        · rfl
        · exact absurd hb hne
      obtain ⟨⟨p', n'⟩, hstep⟩ := stepLevel_ok G nextLevel hnodes paths []
      obtain ⟨D, hD1, hD2, hD3⟩ := stepLevel_shape G nextLevel paths [] p' n' hstep
      simp only [List.nil_append] at hD2
      have hmonoPath : ∀ v, hasPath paths v = true → hasPath p' v = true := by
        intro v hv
        rw [hD1, hasPath_append, hv]
        rfl
      have hclosed : ∀ y ∈ nextLevel, ∀ w ∈ G.succs y.1, hasPath p' w = true :=
        stepLevel_closure G nextLevel paths [] p' n' hstep
      have hDnodes : ∀ x ∈ D, x.1 ∈ G.nodes := by
        intro x hx
        obtain ⟨_, y, _, hsucc, _⟩ := hD3 x hx
        obtain ⟨r, hr⟩ := mem_succs.mp hsucc
        exact (hWF _ hr).2
      have hclosure' : ∀ v, hasPath p' v = true →
          (∃ x ∈ n', x.1 = v) ∨ ∀ w ∈ G.succs v, hasPath p' w = true := by
        intro v hv
        rw [hD1, hasPath_append, Bool.or_eq_true] at hv
        rcases hv with hv | hv
        · rcases hclosure v hv with ⟨x, hx, hxv⟩ | hcl
          · right
            intro w hw
            exact hclosed x hx w (hxv ▸ hw)
          · right
            intro w hw
            exact hmonoPath w (hcl w hw)
        · obtain ⟨p, hp⟩ := mem_of_hasPath hv
          exact Or.inl ⟨(v, p), hD2 ▸ hp, rfl⟩
      cases hDnil : D with
      | nil =>
        have hp'eq : p' = paths := by
          rw [hD1, hDnil, List.append_nil]
        have hn'eq : n' = [] := by
          rw [hD2, hDnil]
        refine ⟨paths, ?_, ?_⟩
        · rw [ssspLoop_step G none fuel level paths nextLevel p' n' hne' hstep]
          have hcut : cutoffLe none (level + 1) = false := rfl
          rw [hcut]
          simp only [Bool.false_eq_true, if_false]
          rw [hp'eq, hn'eq]
          exact ssspLoop_nil G none fuel (level + 1) paths (by omega)
        · intro v hv w hw
          rcases hclosure v hv with ⟨x, hx, hxv⟩ | hcl
          · exact hp'eq ▸ hclosed x hx w (hxv ▸ hw)
          · exact hcl w hw
      | cons d D' =>
        have hd : d ∈ D := hDnil ▸ List.mem_cons_self d D'
        have hdnew : hasPath paths d.1 = false := (hD3 d hd).1
        have hdin : hasPath p' d.1 = true := by
          rw [hD1, hasPath_append]
          have : hasPath D d.1 = true := hasPath_of_mem hd
          rw [this]
          simp
        have hmeas :
            (G.nodes.dedup.filter (fun v => ! hasPath p' v)).length <
              (G.nodes.dedup.filter (fun v => ! hasPath paths v)).length := by
          apply length_filter_lt_of_imp _ _ G.nodes.dedup
          · intro a _ hqa
            cases haP : hasPath paths a
            · rfl
            · rw [hmonoPath a haP] at hqa
              cases hqa
          · exact List.mem_dedup.mpr (hDnodes d hd)
          · rw [hdnew]
            rfl
          · rw [hdin]
            rfl
        obtain ⟨ps, hps, hpsC⟩ := ih (level + 1) p' n'
          (fun x hx => hDnodes x (hD2 ▸ hx)) hclosure' (by omega)
        refine ⟨ps, ?_, hpsC⟩
        rw [ssspLoop_step G none fuel level paths nextLevel p' n' hne' hstep]
        have hcut : cutoffLe none (level + 1) = false := rfl
        rw [hcut]
        simp only [Bool.false_eq_true, if_false]
        exact hps

/-! ### sssp wrappers -/

theorem sssp_some (G : Digraph) (s : Node) (cutoff : Option Nat)
    (hc : cutoff ≠ some 0) :
    sssp (some G) s cutoff =
      ssspLoop G cutoff (G.nodes.dedup.length + 2) 0 [(s, [s])] [(s, [s])] := by
  unfold sssp
  rw [if_neg hc]

theorem sssp_missing (G : Digraph) (s : Node) (cutoff : Option Nat)
    (hs : s ∉ G.nodes) (hc : cutoff ≠ some 0) :
    sssp (some G) s cutoff = .error .keyError := by
  rw [sssp_some G s cutoff hc,
    show G.nodes.dedup.length + 2 = (G.nodes.dedup.length + 1) + 1 from rfl]
  apply ssspLoop_step_err
  · rfl
  · unfold stepLevel
    rw [if_neg hs]

theorem stepLevel_single (G : Digraph) (s : Node) (hs : s ∈ G.nodes) :
    stepLevel G [(s, [s])] [] [(s, [s])] =
      .ok ((stepSuccs [(s, [s])] [] [s] (G.succs s)).1,
        (stepSuccs [(s, [s])] [] [s] (G.succs s)).2) := by
  unfold stepLevel
  rw [if_pos hs]
  rfl

theorem sssp_cutoff1 (G : Digraph) (s : Node) (hs : s ∈ G.nodes) :
    sssp (some G) s (some 1) =
      .ok (stepSuccs [(s, [s])] [] [s] (G.succs s)).1 := by
  rw [sssp_some G s (some 1) (by simp),
    show G.nodes.dedup.length + 2 = (G.nodes.dedup.length + 1) + 1 from rfl,
    ssspLoop_step G (some 1) (G.nodes.dedup.length + 1) 0 [(s, [s])]
      [(s, [s])] _ _ rfl (stepLevel_single G s hs)]
  rfl

theorem sssp_none_step (G : Digraph) (s : Node) (hs : s ∈ G.nodes) :
    sssp (some G) s none =
      ssspLoop G none (G.nodes.dedup.length + 1) 1
        (stepSuccs [(s, [s])] [] [s] (G.succs s)).1
        (stepSuccs [(s, [s])] [] [s] (G.succs s)).2 := by
  rw [sssp_some G s none (by simp),
    show G.nodes.dedup.length + 2 = (G.nodes.dedup.length + 1) + 1 from rfl,
    ssspLoop_step G none (G.nodes.dedup.length + 1) 0 [(s, [s])]
      [(s, [s])] _ _ rfl (stepLevel_single G s hs)]
  rfl

theorem sssp_entries (G : Digraph) (s : Node) (cutoff : Option Nat) (ps : Paths)
    (h : sssp (some G) s cutoff = .ok ps) :
    ∀ x ∈ ps, ValidEntry G s x := by
  by_cases hc : cutoff = some 0
  · unfold sssp at h
    rw [if_pos hc] at h
    injection h with h
    intro x hx
    rw [← h] at hx
    rcases List.mem_singleton.mp hx with rfl
    exact validEntry_source G s
  · rw [sssp_some G s cutoff hc] at h
    exact ssspLoop_entries G s cutoff _ _ _ _ _
      (fun x hx => by rcases List.mem_singleton.mp hx with rfl; exact validEntry_source G s)
      (fun x hx => by rcases List.mem_singleton.mp hx with rfl; exact validEntry_source G s) h

theorem sssp_none_ok (G : Digraph) (s : Node) (hWF : G.WF) (hs : s ∈ G.nodes) :
    ∃ ps, sssp (some G) s none = .ok ps ∧
      (s, [s]) ∈ ps ∧
      (∀ x ∈ ps, ValidEntry G s x) ∧
      (∀ v, hasPath ps v = true → ∀ w ∈ G.succs v, hasPath ps w = true) ∧
      (∀ v, Reach G s v → hasPath ps v = true) := by
  have hinit1 : ∀ x ∈ ([(s, [s])] : Paths), x.1 ∈ G.nodes := by
    intro x hx
    rcases List.mem_singleton.mp hx with rfl
    exact hs
  have hinit2 : ∀ v, hasPath [(s, [s])] v = true →
      (∃ x ∈ ([(s, [s])] : Paths), x.1 = v) ∨
        ∀ w ∈ G.succs v, hasPath [(s, [s])] w = true := by
    intro v hv
    obtain ⟨p, hp⟩ := mem_of_hasPath hv
    exact Or.inl ⟨(v, p), hp, rfl⟩
  have hfuel :
      (G.nodes.dedup.filter (fun v => ! hasPath [(s, [s])] v)).length + 2 ≤
        G.nodes.dedup.length + 2 := by
    have := List.length_filter_le (fun v => ! hasPath [(s, [s])] v) G.nodes.dedup
    omega
  obtain ⟨ps, hps, hclosed⟩ :=
    ssspLoop_complete G hWF _ 0 [(s, [s])] [(s, [s])] hinit1 hinit2 hfuel
  have heq : sssp (some G) s none = .ok ps := by
    rw [sssp_some G s none (by simp)]
    exact hps
  have hmem : (s, [s]) ∈ ps := by
    obtain ⟨D, hD⟩ := ssspLoop_mono G none _ _ _ _ _ hps
    rw [hD]
    exact List.mem_append.mpr (Or.inl (List.mem_singleton.mpr rfl))
  refine ⟨ps, heq, hmem, ?_, hclosed, ?_⟩
  · exact ssspLoop_entries G s none _ _ _ _ _
      (fun x hx => by rcases List.mem_singleton.mp hx with rfl; exact validEntry_source G s)
      (fun x hx => by rcases List.mem_singleton.mp hx with rfl; exact validEntry_source G s) hps
  · intro v hr
    induction hr with
    | refl => exact hasPath_of_mem hmem
    | step hru hsucc ih => exact hclosed _ ih _ hsucc

/-! ### Annotation fold lemmas: forward loop -/

theorem mem_ite_nil {α : Type} {c : Prop} [Decidable c] {l : List α} {a : α} :
    a ∈ (if c then l else []) ↔ c ∧ a ∈ l := by
  by_cases hc : c <;> simp [hc]

theorem memberInsert_user (data : GroupDetails) (name : String) (e : PathEntry) :
    memberInsert data "User" name e =
      .ok { data with users := dictInsert data.users name e } := rfl

theorem memberInsert_group (data : GroupDetails) (name : String) (e : PathEntry) :
    memberInsert data "Group" name e =
      .ok { data with subgroups := dictInsert data.subgroups name e } := by
  unfold memberInsert
  rw [if_neg (by decide), if_pos rfl]

theorem memberInsert_groups_eq {data data' : GroupDetails} {kind name : String}
    {e : PathEntry} (h : memberInsert data kind name e = .ok data') :
    data'.groups = data.groups := by
  unfold memberInsert at h
  by_cases h1 : kind = "User"
  · rw [if_pos h1] at h
    injection h with h
    rw [← h]
  · rw [if_neg h1] at h
    by_cases h2 : kind = "Group"
    · rw [if_pos h2] at h
      injection h with h
      rw [← h]
    · rw [if_neg h2] at h
      cases h

theorem memberInsert_cases {data data' : GroupDetails} {kind name : String}
    {e : PathEntry} (h : memberInsert data kind name e = .ok data') :
    (kind = "User" ∧ data' = { data with users := dictInsert data.users name e }) ∨
      (kind = "Group" ∧
        data' = { data with subgroups := dictInsert data.subgroups name e }) := by
  unfold memberInsert at h
  by_cases h1 : kind = "User"
  · rw [if_pos h1] at h
    injection h with h
    exact Or.inl ⟨h1, h.symm⟩
  · rw [if_neg h1] at h
    by_cases h2 : kind = "Group"
    · rw [if_pos h2] at h
      injection h with h
      exact Or.inr ⟨h2, h.symm⟩
    · rw [if_neg h2] at h
      cases h

theorem forwardFold_groups (G : Digraph) (origin : Node) :
    ∀ (L : List (Node × List Node)) (data d' : GroupDetails),
      forwardFold G origin L data = .ok d' → d'.groups = data.groups := by
  intro L
  induction L with
  | nil =>
    intro data d' h
    injection h with h
    rw [h]
  | cons y rest ih =>
    intro data d' h
    obtain ⟨m, p⟩ := y
    simp only [forwardFold] at h
    by_cases hm : m = origin
    · rw [if_pos hm] at h
      exact ih data d' h
    · rw [if_neg hm] at h
      split at h
      · cases h
      · next role hrole =>
        split at h
        · cases h
        · next data2 hmi =>
          rw [ih data2 d' h, memberInsert_groups_eq hmi]

theorem forwardFold_mem_users (G : Digraph) (origin : Node) :
    ∀ (L : List (Node × List Node)) (data d' : GroupDetails),
      forwardFold G origin L data = .ok d' →
      ∀ n e, (n, e) ∈ d'.users →
        (n, e) ∈ data.users ∨
          ∃ p role, (((("User" : String), n) : Node), p) ∈ L ∧
            ((("User" : String), n) : Node) ≠ origin ∧
            G.edgeRole origin (p.getD 1 origin) = some role ∧
            e = mkPathEntry ("User", n) p role := by
  intro L
  induction L with
  | nil =>
    intro data d' h n e hmem
    injection h with h
    exact Or.inl (h ▸ hmem)
  | cons y rest ih =>
    intro data d' h n e hmem
    obtain ⟨m, p⟩ := y
    simp only [forwardFold] at h
    by_cases hm : m = origin
    · rw [if_pos hm] at h
      rcases ih data d' h n e hmem with h' | ⟨p', role, hp', hne, hr, he⟩
      · exact Or.inl h'
      · exact Or.inr ⟨p', role, List.mem_cons_of_mem _ hp', hne, hr, he⟩
    · rw [if_neg hm] at h
      split at h
      · cases h
      · next role hrole =>
        split at h
        · cases h
        · next data2 hmi =>
          rcases ih data2 d' h n e hmem with h' | ⟨p', role', hp', hne, hr, he⟩
          · rcases memberInsert_cases hmi with ⟨hk, hd2⟩ | ⟨hk, hd2⟩
            · rw [hd2] at h'
              dsimp only at h'
              rcases mem_dictInsert h' with h'' | ⟨rfl, rfl⟩
              · exact Or.inl h''
              · have hmn : m = (("User" : String), m.2) := by
                  obtain ⟨m1, m2⟩ := m
                  simp only at hk
                  rw [hk]
                exact Or.inr ⟨p, role, by
                  refine ⟨?_, ?_, hrole, ?_⟩
                  · rw [← hmn]; exact List.mem_cons_self _ _
                  · rw [← hmn]; exact hm
                  · rw [← hmn]⟩
            · rw [hd2] at h'
              dsimp only at h'
              exact Or.inl h'
          · exact Or.inr ⟨p', role', List.mem_cons_of_mem _ hp', hne, hr, he⟩

theorem forwardFold_mem_subgroups (G : Digraph) (origin : Node) :
    ∀ (L : List (Node × List Node)) (data d' : GroupDetails),
      forwardFold G origin L data = .ok d' →
      ∀ n e, (n, e) ∈ d'.subgroups →
        (n, e) ∈ data.subgroups ∨
          ∃ p role, (((("Group" : String), n) : Node), p) ∈ L ∧
            ((("Group" : String), n) : Node) ≠ origin ∧
            G.edgeRole origin (p.getD 1 origin) = some role ∧
            e = mkPathEntry ("Group", n) p role := by
  intro L
  induction L with
  | nil =>
    intro data d' h n e hmem
    injection h with h
    exact Or.inl (h ▸ hmem)
  | cons y rest ih =>
    intro data d' h n e hmem
    obtain ⟨m, p⟩ := y
    simp only [forwardFold] at h
    by_cases hm : m = origin
    · rw [if_pos hm] at h
      rcases ih data d' h n e hmem with h' | ⟨p', role, hp', hne, hr, he⟩
      · exact Or.inl h'
      · exact Or.inr ⟨p', role, List.mem_cons_of_mem _ hp', hne, hr, he⟩
    · rw [if_neg hm] at h
      split at h
      · cases h
      · next role hrole =>
        split at h
        · cases h
        · next data2 hmi =>
          rcases ih data2 d' h n e hmem with h' | ⟨p', role', hp', hne, hr, he⟩
          · rcases memberInsert_cases hmi with ⟨hk, hd2⟩ | ⟨hk, hd2⟩
            · rw [hd2] at h'
              dsimp only at h'
              exact Or.inl h'
            · rw [hd2] at h'
              dsimp only at h'
              rcases mem_dictInsert h' with h'' | ⟨rfl, rfl⟩
              · exact Or.inl h''
              · have hmn : m = (("Group" : String), m.2) := by
                  obtain ⟨m1, m2⟩ := m
                  simp only at hk
                  rw [hk]
                exact Or.inr ⟨p, role, by
                  refine ⟨?_, ?_, hrole, ?_⟩
                  · rw [← hmn]; exact List.mem_cons_self _ _
                  · rw [← hmn]; exact hm
                  · rw [← hmn]⟩
          · exact Or.inr ⟨p', role', List.mem_cons_of_mem _ hp', hne, hr, he⟩

theorem hasDKey_dictInsert_mono {α β : Type} [DecidableEq α] {d : List (α × β)}
    {k k' : α} {v : β} (h : hasDKey d k' = true) :
    hasDKey (dictInsert d k v) k' = true := by
  rw [hasDKey_dictInsert, h]
  rfl

theorem hasDKey_dictInsert_self {α β : Type} [DecidableEq α] (d : List (α × β))
    (k : α) (v : β) : hasDKey (dictInsert d k v) k = true := by
  rw [hasDKey_dictInsert]
  simp

theorem forwardFold_keymono (G : Digraph) (origin : Node) :
    ∀ (L : List (Node × List Node)) (data d' : GroupDetails),
      forwardFold G origin L data = .ok d' →
      ∀ n, (hasDKey data.users n = true → hasDKey d'.users n = true) ∧
        (hasDKey data.subgroups n = true → hasDKey d'.subgroups n = true) := by
  intro L
  induction L with
  | nil =>
    intro data d' h n
    injection h with h
    rw [h]
    exact ⟨id, id⟩
  | cons y rest ih =>
    intro data d' h n
    obtain ⟨m, p⟩ := y
    simp only [forwardFold] at h
    by_cases hm : m = origin
    · rw [if_pos hm] at h
      exact ih data d' h n
    · rw [if_neg hm] at h
      split at h
      · cases h
      · next role hrole =>
        split at h
        · cases h
        · next data2 hmi =>
          have hih := ih data2 d' h n
          rcases memberInsert_cases hmi with ⟨_, hd2⟩ | ⟨_, hd2⟩ <;> rw [hd2] at hih
          · exact ⟨fun hu => hih.1 (hasDKey_dictInsert_mono hu), fun hs => hih.2 hs⟩
          · exact ⟨fun hu => hih.1 hu, fun hs => hih.2 (hasDKey_dictInsert_mono hs)⟩

theorem forwardFold_complete (G : Digraph) (origin : Node) :
    ∀ (L : List (Node × List Node)) (data d' : GroupDetails),
      forwardFold G origin L data = .ok d' →
      ∀ m p, ((m, p) : Node × List Node) ∈ L → m ≠ origin →
        (m.1 = "User" → hasDKey d'.users m.2 = true) ∧
        (m.1 = "Group" → hasDKey d'.subgroups m.2 = true) := by
  intro L
  induction L with
  | nil =>
    intro data d' h m p hmem
    cases hmem
  | cons y rest ih =>
    intro data d' h m p hmem hne
    obtain ⟨m0, p0⟩ := y
    simp only [forwardFold] at h
    rcases List.mem_cons.mp hmem with heq | hmem'
    · injection heq with heq1 heq2
      subst heq1
      rw [if_neg hne] at h
      split at h
      · cases h
      · next role hrole =>
        split at h
        · cases h
        · next data2 hmi =>
          have hmono := forwardFold_keymono G origin rest data2 d' h m.2
          rcases memberInsert_cases hmi with ⟨hk, hd2⟩ | ⟨hk, hd2⟩ <;> rw [hd2] at hmono
          · refine ⟨fun _ => hmono.1 (hasDKey_dictInsert_self _ _ _), fun hg => ?_⟩
            have hcontra : ("User" : String) = "Group" := by rw [← hk, hg]
            exact absurd hcontra (by decide)
          · refine ⟨fun hu => ?_, fun _ => hmono.2 (hasDKey_dictInsert_self _ _ _)⟩
            have hcontra : ("Group" : String) = "User" := by rw [← hk, hu]
            exact absurd hcontra (by decide)
    · by_cases hm0 : m0 = origin
      · rw [if_pos hm0] at h
        exact ih data d' h m p hmem' hne
      · rw [if_neg hm0] at h
        split at h
        · cases h
        · next role hrole =>
          split at h
          · cases h
          · next data2 hmi =>
            exact ih data2 d' h m p hmem' hne

theorem forwardFold_ok (G : Digraph) (origin : Node) :
    ∀ (L : List (Node × List Node)),
      (∀ m p, ((m, p) : Node × List Node) ∈ L → m ≠ origin →
        (m.1 = "User" ∨ m.1 = "Group") ∧
          ∃ r, G.edgeRole origin (p.getD 1 origin) = some r) →
      ∀ data, ∃ d', forwardFold G origin L data = .ok d' := by
  intro L
  induction L with
  | nil => intro _ data; exact ⟨data, rfl⟩
  | cons y rest ih =>
    intro hL data
    obtain ⟨m, p⟩ := y
    simp only [forwardFold]
    by_cases hm : m = origin
    · rw [if_pos hm]
      exact ih (fun m' p' hmem hne => hL m' p' (List.mem_cons_of_mem _ hmem) hne) data
    · rw [if_neg hm]
      obtain ⟨hkind, r, hr⟩ := hL m p (List.mem_cons_self _ _) hm
      have hmi : ∃ data2, memberInsert data m.1 m.2 (mkPathEntry m p r) = .ok data2 := by
        rcases hkind with hk | hk
        · rw [hk]
          exact ⟨_, memberInsert_user data m.2 (mkPathEntry m p r)⟩
        · rw [hk]
          exact ⟨_, memberInsert_group data m.2 (mkPathEntry m p r)⟩
      obtain ⟨data2, hmi⟩ := hmi
      simp only [hr, hmi]
      exact ih (fun m' p' hmem hne => hL m' p' (List.mem_cons_of_mem _ hmem) hne) data2

/-! ### Annotation fold lemmas: reverse loop -/

theorem reverseFold_users_subgroups (rG : Digraph) (origin : Node) :
    ∀ (L : List (Node × List Node)) (data d' : GroupDetails),
      reverseFold rG origin L data = .ok d' →
      d'.users = data.users ∧ d'.subgroups = data.subgroups := by
  intro L
  induction L with
  | nil =>
    intro data d' h
    injection h with h
    rw [h]
    exact ⟨rfl, rfl⟩
  | cons y rest ih =>
    intro data d' h
    obtain ⟨m, p⟩ := y
    simp only [reverseFold] at h
    by_cases hm : m = origin
    · rw [if_pos hm] at h
      exact ih data d' h
    · rw [if_neg hm] at h
      split at h
      · cases h
      · next role hrole =>
        obtain ⟨h1, h2⟩ := ih _ d' h
        exact ⟨h1, h2⟩

theorem reverseFold_mem_groups (rG : Digraph) (origin : Node) :
    ∀ (L : List (Node × List Node)) (data d' : GroupDetails),
      reverseFold rG origin L data = .ok d' →
      ∀ n e, (n, e) ∈ d'.groups →
        (n, e) ∈ data.groups ∨
          ∃ m p role, ((m, p) : Node × List Node) ∈ L ∧ m ≠ origin ∧ n = m.2 ∧
            rG.edgeRole (p.getD (p.length - 2) origin) m = some role ∧
            e = mkPathEntry m p role := by
  intro L
  induction L with
  | nil =>
    intro data d' h n e hmem
    injection h with h
    exact Or.inl (h ▸ hmem)
  | cons y rest ih =>
    intro data d' h n e hmem
    obtain ⟨m, p⟩ := y
    simp only [reverseFold] at h
    by_cases hm : m = origin
    · rw [if_pos hm] at h
      rcases ih data d' h n e hmem with h' | ⟨m', p', role, hmp, hne, hn, hr, he⟩
      · exact Or.inl h'
      · exact Or.inr ⟨m', p', role, List.mem_cons_of_mem _ hmp, hne, hn, hr, he⟩
    · rw [if_neg hm] at h
      split at h
      · cases h
      · next role hrole =>
        rcases ih _ d' h n e hmem with h' | ⟨m', p', role', hmp, hne, hn, hr, he⟩
        · dsimp only at h'
          rcases mem_dictInsert h' with h'' | ⟨rfl, rfl⟩
          · exact Or.inl h''
          · exact Or.inr ⟨m, p, role, List.mem_cons_self _ _, hm, rfl, hrole, rfl⟩
        · exact Or.inr ⟨m', p', role', List.mem_cons_of_mem _ hmp, hne, hn, hr, he⟩

theorem reverseFold_ok (rG : Digraph) (origin : Node) :
    ∀ (L : List (Node × List Node)),
      (∀ m p, ((m, p) : Node × List Node) ∈ L → m ≠ origin →
        ∃ r, rG.edgeRole (p.getD (p.length - 2) origin) m = some r) →
      ∀ data, ∃ d', reverseFold rG origin L data = .ok d' := by
  intro L
  induction L with
  | nil => intro _ data; exact ⟨data, rfl⟩
  | cons y rest ih =>
    intro hL data
    obtain ⟨m, p⟩ := y
    simp only [reverseFold]
    by_cases hm : m = origin
    · rw [if_pos hm]
      exact ih (fun m' p' hmem hne => hL m' p' (List.mem_cons_of_mem _ hmem) hne) data
    · rw [if_neg hm]
      obtain ⟨r, hr⟩ := hL m p (List.mem_cons_self _ _) hm
      simp only [hr]
      exact ih (fun m' p' hmem hne => hL m' p' (List.mem_cons_of_mem _ hmem) hne) _

/-! ### Annotation fold lemmas: user loop -/

theorem userFold_pm (rG : Digraph) (origin : Node) :
    ∀ (L : List (Node × List Node)) (gs : List (String × PathEntry))
      (ps : List MappedPermission) (pm : PermDict)
      (gs' : List (String × PathEntry)) (ps' : List MappedPermission)
      (pm' : PermDict),
      userFold rG origin L gs ps pm = .ok (gs', ps', pm') →
      (∀ k, ddGet pm' k = ddGet pm k) ∧
        (∀ k, hasDKey pm k = true → hasDKey pm' k = true) := by
  intro L
  induction L with
  | nil =>
    intro gs ps pm gs' ps' pm' h
    injection h with h
    injection h with h1 h2
    injection h2 with h2 h3
    rw [← h3]
    exact ⟨fun k => rfl, fun k hk => hk⟩
  | cons y rest ih =>
    intro gs ps pm gs' ps' pm' h
    obtain ⟨m, p⟩ := y
    simp only [userFold] at h
    by_cases hm : m = origin
    · rw [if_pos hm] at h
      exact ih gs ps pm gs' ps' pm' h
    · rw [if_neg hm] at h
      split at h
      · cases h
      · next role hrole =>
        obtain ⟨hget, hkey⟩ := ih _ _ _ gs' ps' pm' h
        constructor
        · intro k
          rw [hget k, ddGet_ddTouch]
        · intro k hk
          exact hkey k (hasDKey_ddTouch_of_hasDKey pm _ k hk)

theorem userFold_key_src (rG : Digraph) (origin : Node) :
    ∀ (L : List (Node × List Node)) (gs : List (String × PathEntry))
      (ps : List MappedPermission) (pm : PermDict)
      (gs' : List (String × PathEntry)) (ps' : List MappedPermission)
      (pm' : PermDict),
      userFold rG origin L gs ps pm = .ok (gs', ps', pm') →
      ∀ n, hasDKey gs' n = true →
        hasDKey gs n = true ∨
          ∃ m p, ((m, p) : Node × List Node) ∈ L ∧ m ≠ origin ∧ m.2 = n := by
  intro L
  induction L with
  | nil =>
    intro gs ps pm gs' ps' pm' h n hn
    injection h with h
    injection h with h1 h2
    exact Or.inl (h1 ▸ hn)
  | cons y rest ih =>
    intro gs ps pm gs' ps' pm' h n hn
    obtain ⟨m, p⟩ := y
    simp only [userFold] at h
    by_cases hm : m = origin
    · rw [if_pos hm] at h
      rcases ih gs ps pm gs' ps' pm' h n hn with h' | ⟨m', p', hmp, hne, hn'⟩
      · exact Or.inl h'
      · exact Or.inr ⟨m', p', List.mem_cons_of_mem _ hmp, hne, hn'⟩
    · rw [if_neg hm] at h
      split at h
      · cases h
      · next role hrole =>
        rcases ih _ _ _ gs' ps' pm' h n hn with h' | ⟨m', p', hmp, hne, hn'⟩
        · rw [hasDKey_dictInsert, Bool.or_eq_true] at h'
          rcases h' with h' | h'
          · exact Or.inl h'
          · exact Or.inr ⟨m, p, List.mem_cons_self _ _, hm,
              (decide_eq_true_eq.mp h').symm⟩
        · exact Or.inr ⟨m', p', List.mem_cons_of_mem _ hmp, hne, hn'⟩

theorem userFold_mem_groups (rG : Digraph) (origin : Node) :
    ∀ (L : List (Node × List Node)) (gs : List (String × PathEntry))
      (ps : List MappedPermission) (pm : PermDict)
      (gs' : List (String × PathEntry)) (ps' : List MappedPermission)
      (pm' : PermDict),
      userFold rG origin L gs ps pm = .ok (gs', ps', pm') →
      ∀ n e, (n, e) ∈ gs' →
        (n, e) ∈ gs ∨
          ∃ m p role, ((m, p) : Node × List Node) ∈ L ∧ m ≠ origin ∧ n = m.2 ∧
            rG.edgeRole (p.getD (p.length - 2) origin) m = some role ∧
            e = mkPathEntry m p role := by
  intro L
  induction L with
  | nil =>
    intro gs ps pm gs' ps' pm' h n e hmem
    injection h with h
    injection h with h1 h2
    exact Or.inl (h1 ▸ hmem)
  | cons y rest ih =>
    intro gs ps pm gs' ps' pm' h n e hmem
    obtain ⟨m, p⟩ := y
    simp only [userFold] at h
    by_cases hm : m = origin
    · rw [if_pos hm] at h
      rcases ih gs ps pm gs' ps' pm' h n e hmem with h' | ⟨m', p', role, hmp, hne, hn, hr, he⟩
      · exact Or.inl h'
      · exact Or.inr ⟨m', p', role, List.mem_cons_of_mem _ hmp, hne, hn, hr, he⟩
    · rw [if_neg hm] at h
      split at h
      · cases h
      · next role hrole =>
        rcases ih _ _ _ gs' ps' pm' h n e hmem with h' | ⟨m', p', role', hmp, hne, hn, hr, he⟩
        · rcases mem_dictInsert h' with h'' | ⟨rfl, rfl⟩
          · exact Or.inl h''
          · exact Or.inr ⟨m, p, role, List.mem_cons_self _ _, hm, rfl, hrole, rfl⟩
        · exact Or.inr ⟨m', p', role', List.mem_cons_of_mem _ hmp, hne, hn, hr, he⟩

theorem userFold_perms (rG : Digraph) (origin : Node) :
    ∀ (L : List (Node × List Node)) (gs : List (String × PathEntry))
      (ps : List MappedPermission) (pm : PermDict)
      (gs' : List (String × PathEntry)) (ps' : List MappedPermission)
      (pm' : PermDict),
      userFold rG origin L gs ps pm = .ok (gs', ps', pm') →
      (∀ x ∈ ps, x ∈ ps') ∧
        (∀ m p, ((m, p) : Node × List Node) ∈ L → m ≠ origin →
          ∀ mp ∈ ddGet pm (.strKey m.2), mp ∈ ps') := by
  intro L
  induction L with
  | nil =>
    intro gs ps pm gs' ps' pm' h
    injection h with h
    injection h with h1 h2
    injection h2 with h2 h3
    refine ⟨fun x hx => h2 ▸ hx, fun m p hmp => absurd hmp (List.not_mem_nil _)⟩
  | cons y rest ih =>
    intro gs ps pm gs' ps' pm' h
    obtain ⟨m, p⟩ := y
    simp only [userFold] at h
    by_cases hm : m = origin
    · rw [if_pos hm] at h
      obtain ⟨hps, hrest⟩ := ih gs ps pm gs' ps' pm' h
      refine ⟨hps, fun m' p' hmp hne mp hmem => ?_⟩
      rcases List.mem_cons.mp hmp with heq | hmp'
      · injection heq with heq1 heq2
        subst heq1
        exact absurd hm hne
      · exact hrest m' p' hmp' hne mp hmem
    · rw [if_neg hm] at h
      split at h
      · cases h
      · next role hrole =>
        obtain ⟨hps, hrest⟩ := ih _ _ _ gs' ps' pm' h
        refine ⟨fun x hx => hps x (List.mem_append.mpr (Or.inl hx)),
          fun m' p' hmp hne mp hmem => ?_⟩
        rcases List.mem_cons.mp hmp with heq | hmp'
        · injection heq with heq1 heq2
          subst heq1
          exact hps mp (List.mem_append.mpr (Or.inr hmem))
        · exact hrest m' p' hmp' hne mp (by rw [ddGet_ddTouch]; exact hmem)

theorem userFold_ok (rG : Digraph) (origin : Node) :
    ∀ (L : List (Node × List Node)),
      (∀ m p, ((m, p) : Node × List Node) ∈ L → m ≠ origin →
        ∃ r, rG.edgeRole (p.getD (p.length - 2) origin) m = some r) →
      ∀ gs ps pm, ∃ gs' ps' pm',
        userFold rG origin L gs ps pm = .ok (gs', ps', pm') := by
  intro L
  induction L with
  | nil => intro _ gs ps pm; exact ⟨gs, ps, pm, rfl⟩
  | cons y rest ih =>
    intro hL gs ps pm
    obtain ⟨m, p⟩ := y
    simp only [userFold]
    by_cases hm : m = origin
    · rw [if_pos hm]
      exact ih (fun m' p' hmem hne => hL m' p' (List.mem_cons_of_mem _ hmem) hne) gs ps pm
    · rw [if_neg hm]
      obtain ⟨r, hr⟩ := hL m p (List.mem_cons_self _ _) hm
      simp only [hr]
      exact ih (fun m' p' hmem hne => hL m' p' (List.mem_cons_of_mem _ hmem) hne) _ _ _

/-! ### Snapshot construction lemmas -/

theorem mem_edgesFromDb {db : DB} {e : Node × Node × Nat}
    (he : e ∈ edgesFromDb db) :
    ∃ parent ∈ db.groups, parent.enabled = true ∧
      e.1 = ((("Group" : String), parent.groupname) : Node) ∧
      ((∃ gm ∈ db.groups, gm.enabled = true ∧
          e.2.1 = ((("Group" : String), gm.groupname) : Node)) ∨
        (∃ um ∈ db.users, um.enabled = true ∧
          e.2.1 = ((("User" : String), um.username) : Node))) := by
  unfold edgesFromDb at he
  rcases List.mem_append.mp he with hside | hside
  · obtain ⟨ed, _, hin⟩ := List.mem_flatMap.mp hside
    obtain ⟨_, hin⟩ := mem_ite_nil.mp hin
    obtain ⟨parent, hparent, hin⟩ := List.mem_flatMap.mp hin
    obtain ⟨gm, hgm, hin⟩ := List.mem_flatMap.mp hin
    obtain ⟨⟨_, _, _, hpe, hge, _⟩, hin⟩ := mem_ite_nil.mp hin
    rcases List.mem_singleton.mp hin with rfl
    exact ⟨parent, hparent, hpe, rfl, Or.inl ⟨gm, hgm, hge, rfl⟩⟩
  · obtain ⟨ed, _, hin⟩ := List.mem_flatMap.mp hside
    obtain ⟨_, hin⟩ := mem_ite_nil.mp hin
    obtain ⟨parent, hparent, hin⟩ := List.mem_flatMap.mp hin
    obtain ⟨um, hum, hin⟩ := List.mem_flatMap.mp hin
    obtain ⟨⟨_, _, _, hpe, hue, _⟩, hin⟩ := mem_ite_nil.mp hin
    rcases List.mem_singleton.mp hin with rfl
    exact ⟨parent, hparent, hpe, rfl, Or.inr ⟨um, hum, hue, rfl⟩⟩

theorem group_node_mem {db : DB} {g : DBGroup} (hg : g ∈ db.groups)
    (he : g.enabled = true) :
    ((("Group" : String), g.groupname) : Node) ∈ nodesFromDb db := by
  unfold nodesFromDb
  refine List.mem_append.mpr (Or.inr ?_)
  exact List.mem_map.mpr ⟨g, List.mem_filter.mpr ⟨hg, he⟩, rfl⟩

theorem user_node_mem {db : DB} {u : DBUser} (hu : u ∈ db.users)
    (he : u.enabled = true) :
    ((("User" : String), u.username) : Node) ∈ nodesFromDb db := by
  unfold nodesFromDb
  refine List.mem_append.mpr (Or.inl ?_)
  exact List.mem_map.mpr ⟨u, List.mem_filter.mpr ⟨hu, he⟩, rfl⟩

theorem graphFromDb_WF (db : DB) : (graphFromDb db).WF := by
  intro e he
  obtain ⟨parent, hparent, hpe, he1, hrest⟩ := mem_edgesFromDb he
  constructor
  · rw [he1]
    exact group_node_mem hparent hpe
  · rcases hrest with ⟨gm, hgm, hge, he2⟩ | ⟨um, hum, hue, he2⟩
    · rw [he2]
      exact group_node_mem hgm hge
    · rw [he2]
      exact user_node_mem hum hue

theorem graphFromDb_kinds (db : DB) :
    ∀ n ∈ (graphFromDb db).nodes, n.1 = "User" ∨ n.1 = "Group" := by
  intro n hn
  rcases List.mem_append.mp hn with h | h
  · obtain ⟨u, _, rfl⟩ := List.mem_map.mp h
    exact Or.inl rfl
  · obtain ⟨g, _, rfl⟩ := List.mem_map.mp h
    exact Or.inr rfl

theorem graphFromDb_src (db : DB) :
    ∀ e ∈ (graphFromDb db).edges, e.1.1 = "Group" := by
  intro e he
  obtain ⟨parent, _, _, he1, _⟩ := mem_edgesFromDb he
  rw [he1]

theorem pmLoop_tag (groups : List DBGroup) :
    ∀ (grants : List DBGrant) (acc : PermDict),
      (∀ g mp, mp ∈ ddGet acc (.strKey g) → mp.groupname = g) →
      ∀ g mp, mp ∈ ddGet (pmLoop groups grants acc) (.strKey g) →
        mp.groupname = g := by
  intro grants
  induction grants with
  | nil => intro acc hacc; exact hacc
  | cons gr rest ih =>
    intro acc hacc g mp hmp
    simp only [pmLoop] at hmp
    cases hfind : groups.find? (fun g0 => decide (g0.id = gr.group_id)) with
    | none =>
      rw [hfind] at hmp
      exact ih acc hacc g mp hmp
    | some g0 =>
      rw [hfind] at hmp
      refine ih _ ?_ g mp hmp
      intro g1 mp1 hmp1
      rcases mem_ddGet_ddAppend hmp1 with h | ⟨hk, rfl⟩
      · exact hacc g1 mp1 h
      · injection hk with hk
        rw [← hk]

theorem getPermissionsMetadata_tag (db : DB) :
    ∀ g mp, mp ∈ ddGet (getPermissionsMetadata db) (.strKey g) →
      mp.groupname = g := by
  refine pmLoop_tag db.groups db.grants [] ?_
  intro g mp hmp
  cases hmp

theorem gmLoop_pm : ∀ (gs : List DBGroup) (out : List (String × GroupMeta))
    (pm : PermDict) (k : PyKey), ddGet (gmLoop gs out pm).2 k = ddGet pm k := by
  intro gs
  induction gs with
  | nil => intro out pm k; rfl
  | cons g rest ih =>
    intro out pm k
    simp only [gmLoop]
    rw [ih, ddGet_ddTouch]

theorem goodState_init : GoodState GroupGraph.init := by
  intro G hG
  cases hG

theorem update_eq_self {st : GroupGraph} {db : DB}
    (h : (getCheckpoint db).1 = st.checkpoint) : st.update_from_db db = st := by
  unfold GroupGraph.update_from_db
  rw [if_pos h]

theorem update_checkpoint {st : GroupGraph} {db : DB}
    (h : (getCheckpoint db).1 ≠ st.checkpoint) :
    (st.update_from_db db).checkpoint = (getCheckpoint db).1 := by
  unfold GroupGraph.update_from_db
  rw [if_neg h]

theorem update_graph_cases (st : GroupGraph) (db : DB) :
    st.update_from_db db = st ∨
      ((st.update_from_db db).graph = some (graphFromDb db) ∧
        (st.update_from_db db).rgraph = some (graphFromDb db).reverse ∧
        (st.update_from_db db).permissions_metadata =
          (getGroupMetadata db (getPermissionsMetadata db)).2) := by
  unfold GroupGraph.update_from_db
  by_cases h : (getCheckpoint db).1 = st.checkpoint
  · rw [if_pos h]
    exact Or.inl rfl
  · rw [if_neg h]
    exact Or.inr ⟨rfl, rfl, rfl⟩

theorem goodState_update (st : GroupGraph) (db : DB) (h : GoodState st) :
    GoodState (st.update_from_db db) := by
  rcases update_graph_cases st db with heq | ⟨hg, hrg, hpm⟩
  · rw [heq]
    exact h
  · intro G hG
    rw [hg] at hG
    injection hG with hG
    subst hG
    refine ⟨hrg, graphFromDb_WF db, graphFromDb_kinds db, graphFromDb_src db, ?_⟩
    intro g mp hmp
    rw [hpm] at hmp
    unfold getGroupMetadata at hmp
    rw [gmLoop_pm] at hmp
    exact getPermissionsMetadata_tag db g mp hmp

/-! ### Concrete fixtures -/

/-- A database with user `u` (id 10), groups `b` (id 1, contains `u` with
role 0) and `c` (id 2, contains `b` with role 1), and permission `ssh`
granted to `b`. -/
def dbBC : DB :=
  { counter := some ⟨3, 100⟩,
    users := [⟨10, "u", true, []⟩],
    groups := [⟨1, "b", true⟩, ⟨2, "c", true⟩],
    edges := [⟨1, 10, 0, true, none, 0⟩, ⟨2, 1, 1, true, none, 1⟩],
    grants := [⟨"ssh", "*", 1, 5⟩],
    now := 50 }

/-- The snapshot loaded from `dbBC`. -/
def stBC : GroupGraph := GroupGraph.from_db dbBC

/-- A database whose only content is the update counter at 7. -/
def db7 : DB :=
  { counter := some ⟨7, 1⟩, users := [], groups := [],
    edges := [], grants := [], now := 0 }

/-- A database whose only content is the update counter at 5. -/
def db5 : DB :=
  { counter := some ⟨5, 2⟩, users := [], groups := [],
    edges := [], grants := [], now := 0 }

/-- An entirely empty system: no counter row at all. -/
def dbEmpty : DB :=
  { counter := none, users := [], groups := [],
    edges := [], grants := [], now := 0 }

/-- A database with two groups `a1` (id 1) and `a2` (id 2) both directly
containing user `u` (id 10), and permission `p` granted to both. -/
def dbAB : DB :=
  { counter := some ⟨4, 100⟩,
    users := [⟨10, "u", true, []⟩],
    groups := [⟨1, "a1", true⟩, ⟨2, "a2", true⟩],
    edges := [⟨1, 10, 0, true, none, 0⟩, ⟨2, 10, 0, true, none, 2⟩],
    grants := [⟨"p", "x", 1, 5⟩, ⟨"p", "y", 2, 6⟩],
    now := 50 }

/-- The snapshot loaded from `dbAB`. -/
def stAB : GroupGraph := GroupGraph.from_db dbAB

/-! ### Query behavior before the first load -/

theorem get_group_details_none (st : GroupGraph) (hg : st.graph = none)
    (name : String) (cutoff : Option Nat) (hc : cutoff ≠ some 0) :
    st.get_group_details name cutoff = .error .typeError := by
  unfold GroupGraph.get_group_details
  have hs : sssp st.graph ("Group", name) cutoff = .error .typeError := by
    rw [hg]
    unfold sssp
    rw [if_neg hc]
  simp only [hs]

theorem get_user_details_none (st : GroupGraph) (hg : st.rgraph = none)
    (name : String) (cutoff : Option Nat) (hc : cutoff ≠ some 0) :
    st.get_user_details name cutoff = .error .typeError := by
  unfold GroupGraph.get_user_details
  have hs : sssp st.rgraph ("User", name) cutoff = .error .typeError := by
    rw [hg]
    unfold sssp
    rw [if_neg hc]
  simp only [hs]

/-- C2 counterexample: on a freshly constructed `GroupGraph` (where
`_graph` is still `None`), `get_group_details` raises a `TypeError` from
subscripting the `None` graph — not the NotFound condition (`KeyError`)
the claim promises, so the caller does receive a "graph not yet loaded"
style exception. -/
theorem fresh_query_typeerror_cex :
    GroupGraph.init.get_group_details "does-not-exist" none =
      .error .typeError ∧
    (Except.error PyErr.typeError : Except PyErr GroupDetails) ≠
      .error .keyError := by
  decide

/-- C2 (amended): before the first successful load — a freshly constructed
`GroupGraph`, including one refreshed from an empty system whose counter
reads 0 (the refresh is then skipped and no snapshot is installed) — every
`get_group_details` / `get_user_details` call with a non-zero cutoff raises
the `TypeError` of subscripting the `None` graph; the NotFound (`KeyError`)
condition is only produced once a snapshot exists. -/
theorem fresh_query_typeerror (name : String) (cutoff : Option Nat) (db : DB)
    (hc : cutoff ≠ some 0) (hdb : (getCheckpoint db).1 = 0) :
    GroupGraph.init.update_from_db db = GroupGraph.init ∧
    (GroupGraph.init.update_from_db db).get_group_details name cutoff =
      .error .typeError ∧
    (GroupGraph.init.update_from_db db).get_user_details name cutoff =
      .error .typeError := by
  have hself : GroupGraph.init.update_from_db db = GroupGraph.init :=
    update_eq_self (by rw [hdb]; rfl)
  refine ⟨hself, ?_, ?_⟩
  · rw [hself]
    exact get_group_details_none GroupGraph.init rfl name cutoff hc
  · rw [hself]
    exact get_user_details_none GroupGraph.init rfl name cutoff hc

theorem fresh_query_typeerror_witness :
    GroupGraph.init.update_from_db dbEmpty = GroupGraph.init ∧
    (GroupGraph.init.update_from_db dbEmpty).get_group_details
      "does-not-exist" none = .error .typeError ∧
    (GroupGraph.init.update_from_db dbEmpty).get_user_details
      "does-not-exist" none = .error .typeError :=
  fresh_query_typeerror "does-not-exist" none dbEmpty (by decide) (by decide)

/-- C4 (code_bug): in the snapshot loaded from `dbBC`, group `b` has the
direct grant `ssh` recorded in `permissions_metadata` under its name, yet
`group_metadata` reports an empty permission list for `b`, because
`_get_group_metadata` indexes the name-keyed defaultdict with the group's
integer id. -/
theorem group_metadata_empty_bug :
    stBC.group_metadata =
      [("b", ⟨[]⟩), ("c", ⟨[]⟩)] ∧
    ddGet stBC.permissions_metadata (.strKey "b") =
      [⟨"ssh", "*", "b", 5⟩] := by
  decide

/-- C5 counterexample: `get_user_details` on user `u` of `stBC` succeeds
and returns a state whose `permissions_metadata` differs from the input
state's — the defaultdict read `permissions_metadata[parent_name]` inserted
an empty entry for ancestor group `c`, which has no grants. -/
theorem query_mutates_permdict_cex :
    (stBC.get_user_details "u" none).toOption.map
      (fun r => r.2.permissions_metadata) ≠ none ∧
    (stBC.get_user_details "u" none).toOption.map
      (fun r => r.2.permissions_metadata) ≠ some stBC.permissions_metadata := by
  decide

/-- C5 (amended): a successful `get_user_details` leaves the graph, the
reverse graph, the user and group sets, the checkpoint and its time, and
`user_metadata` / `group_metadata` unchanged; `permissions_metadata` is
preserved up to observation — every read (`ddGet`) is unchanged and every
existing key survives — but its key set may grow by default-empty entries
for ancestor groups that had no grants.  (`get_group_details` performs no
writes at all; the embedding gives it no post-state.) -/
theorem get_user_details_frame (st : GroupGraph) (u : String)
    (cutoff : Option Nat) (r : UserDetails) (st' : GroupGraph)
    (h : st.get_user_details u cutoff = .ok (r, st')) :
    st'.graph = st.graph ∧ st'.rgraph = st.rgraph ∧ st'.users = st.users ∧
    st'.groups = st.groups ∧ st'.checkpoint = st.checkpoint ∧
    st'.checkpoint_time = st.checkpoint_time ∧
    st'.user_metadata = st.user_metadata ∧
    st'.group_metadata = st.group_metadata ∧
    (∀ k, ddGet st'.permissions_metadata k = ddGet st.permissions_metadata k) ∧
    (∀ k, hasDKey st.permissions_metadata k = true →
      hasDKey st'.permissions_metadata k = true) := by
  unfold GroupGraph.get_user_details at h
  split at h
  · cases h
  · next rpaths hs =>
    split at h
    · cases h
    · next gs perms pm' huf =>
      injection h with h
      injection h with h1 h2
      rw [← h2]
      obtain ⟨hget, hkey⟩ := userFold_pm _ _ _ _ _ _ _ _ _ huf
      exact ⟨rfl, rfl, rfl, rfl, rfl, rfl, rfl, rfl, hget, hkey⟩

/-- The result value of `stBC.get_user_details "u" none`. -/
def rBC : UserDetails :=
  { groups := [("b", ⟨"b", ["u", "b"], 1, 0, "member"⟩),
      ("c", ⟨"c", ["u", "b", "c"], 2, 1, "manager"⟩)],
    permissions := [⟨"ssh", "*", "b"⟩] }

/-- The post-state of `stBC.get_user_details "u" none`: the defaultdict
gained an empty entry for `c`. -/
def stBC' : GroupGraph :=
  { stBC with permissions_metadata :=
      stBC.permissions_metadata ++ [(.strKey "c", [])] }

theorem get_user_details_frame_witness :
    stBC'.graph = stBC.graph ∧ stBC'.rgraph = stBC.rgraph ∧
    stBC'.users = stBC.users ∧ stBC'.groups = stBC.groups ∧
    stBC'.checkpoint = stBC.checkpoint ∧
    stBC'.checkpoint_time = stBC.checkpoint_time ∧
    stBC'.user_metadata = stBC.user_metadata ∧
    stBC'.group_metadata = stBC.group_metadata ∧
    (∀ k, ddGet stBC'.permissions_metadata k =
      ddGet stBC.permissions_metadata k) ∧
    (∀ k, hasDKey stBC.permissions_metadata k = true →
      hasDKey stBC'.permissions_metadata k = true) :=
  get_user_details_frame stBC "u" none rBC stBC' (by decide)

/-- C6 counterexample: starting from a snapshot at checkpoint 7, a refresh
against a database whose counter reads 5 succeeds (the counter changed, so
the reload runs) and installs checkpoint 5 < 7 — the checkpoint after a
successful refresh is not ≥ the one before when the persisted counter
decreases, and "strictly greater iff changed" fails likewise. -/
theorem checkpoint_decrease_cex :
    (getCheckpoint db5).1 ≠ (GroupGraph.from_db db7).checkpoint ∧
    ((GroupGraph.from_db db7).update_from_db db5).checkpoint <
      (GroupGraph.from_db db7).checkpoint := by
  decide

/-- C6 (amended): provided the freshly read persisted counter is ≥ the
store's current token (the counter never decreases, which `update_from_db`
itself does not enforce — it only compares for equality), the checkpoint
after a refresh is ≥ the one before, and strictly greater exactly when the
counter differs from the stored token. -/
theorem checkpoint_monotone_amended (st : GroupGraph) (db : DB)
    (h : st.checkpoint ≤ (getCheckpoint db).1) :
    st.checkpoint ≤ (st.update_from_db db).checkpoint ∧
      (st.checkpoint < (st.update_from_db db).checkpoint ↔
        (getCheckpoint db).1 ≠ st.checkpoint) := by
  by_cases hcp : (getCheckpoint db).1 = st.checkpoint
  · rw [update_eq_self hcp]
    exact ⟨le_refl _,
      ⟨fun hlt => absurd hlt (lt_irrefl _), fun hne => absurd hcp hne⟩⟩
  · rw [update_checkpoint hcp]
    exact ⟨h, ⟨fun _ => hcp, fun _ => lt_of_le_of_ne h (Ne.symm hcp)⟩⟩

theorem checkpoint_monotone_amended_witness :
    GroupGraph.init.checkpoint ≤
      (GroupGraph.init.update_from_db db7).checkpoint ∧
      (GroupGraph.init.checkpoint <
          (GroupGraph.init.update_from_db db7).checkpoint ↔
        (getCheckpoint db7).1 ≠ GroupGraph.init.checkpoint) :=
  checkpoint_monotone_amended GroupGraph.init db7 (by decide)

/-- C7: refresh is idempotent — when the freshly read counter equals the
stored checkpoint, `update_from_db` returns the state unchanged (no
reconstruction, same snapshot object), and running a second refresh against
the same data is always a no-op. -/
theorem update_from_db_idempotent (st : GroupGraph) (db : DB) :
    ((getCheckpoint db).1 = st.checkpoint → st.update_from_db db = st) ∧
    (st.update_from_db db).update_from_db db = st.update_from_db db := by
  refine ⟨fun h => update_eq_self h, ?_⟩
  by_cases h : (getCheckpoint db).1 = st.checkpoint
  · rw [update_eq_self h, update_eq_self h]
  · exact update_eq_self (update_checkpoint h).symm

theorem update_from_db_idempotent_witness :
    GroupGraph.init.update_from_db dbEmpty = GroupGraph.init ∧
    (GroupGraph.init.update_from_db db7).update_from_db db7 =
      GroupGraph.init.update_from_db db7 :=
  ⟨(update_from_db_idempotent GroupGraph.init dbEmpty).1 (by decide),
    (update_from_db_idempotent GroupGraph.init db7).2⟩

/-- C1 counterexample: in `stBC`, user `u` is in `b` (role 0) and
transitively in `c` via `b` (edge `c → b` has role 1).  The ancestor entry
for `c` discovered by `get_user_details("u")` has path `u, b, c`; the node
one hop from the origin is `b` and the edge between the origin and it
(`b → u`) carries role 0, yet the reported role is 1 — the role of the
terminal edge `c → b` at the far end of the path, contradicting the
claim. -/
theorem role_reverse_terminal_cex :
    (stBC.get_user_details "u" none).toOption.map
      (fun r => (r.1.groups.find? (fun x => decide (x.1 = "c"))).map
        (fun x => (x.2.role, x.2.path))) =
      some (some (1, ["u", "b", "c"])) ∧
    stBC.graph = some (graphFromDb dbBC) ∧
    (graphFromDb dbBC).edgeRole ("Group", "b") ("User", "u") = some 0 ∧
    (1 : Nat) ≠ 0 := by
  decide

theorem mem_of_hasDKey {α β : Type} [DecidableEq α] {d : List (α × β)} {k : α}
    (h : hasDKey d k = true) : ∃ v, (k, v) ∈ d := by
  induction d with
  | nil => simp [hasDKey] at h
  | cons e rest ih =>
    simp only [hasDKey, Bool.or_eq_true, decide_eq_true_eq] at h
    rcases h with h | h
    · exact ⟨e.2, by rw [← h]; exact List.mem_cons_self _ _⟩
    · obtain ⟨v, hv⟩ := ih h
      exact ⟨v, List.mem_cons_of_mem _ hv⟩

/-- C3: on a loaded snapshot, a name that is not a node produces the
distinct NotFound condition — the `KeyError` raised when the BFS subscripts
the graph with the missing source — for both queries, rather than an empty
result. -/
theorem missing_name_keyerror (st : GroupGraph) (G rG : Digraph)
    (gname uname : String) (cutoff : Option Nat)
    (hG : st.graph = some G) (hrG : st.rgraph = some rG)
    (hgn : (("Group", gname) : Node) ∉ G.nodes)
    (hun : (("User", uname) : Node) ∉ rG.nodes)
    (hc : cutoff ≠ some 0) :
    st.get_group_details gname cutoff = .error .keyError ∧
    st.get_user_details uname cutoff = .error .keyError := by
  constructor
  · unfold GroupGraph.get_group_details
    have hs : sssp st.graph ("Group", gname) cutoff = .error .keyError := by
      rw [hG]
      exact sssp_missing G _ cutoff hgn hc
    simp only [hs]
  · unfold GroupGraph.get_user_details
    have hs : sssp st.rgraph ("User", uname) cutoff = .error .keyError := by
      rw [hrG]
      exact sssp_missing rG _ cutoff hun hc
    simp only [hs]

theorem missing_name_keyerror_witness :
    stBC.get_group_details "does-not-exist" none = .error .keyError ∧
    stBC.get_user_details "does-not-exist" none = .error .keyError :=
  missing_name_keyerror stBC (graphFromDb dbBC) (graphFromDb dbBC).reverse
    "does-not-exist" "does-not-exist" none rfl rfl (by decide) (by decide)
    (by decide)

/-- C10: in a snapshot satisfying the construction invariants, every name
in the `groups` mapping of `get_group_details` (the reverse-traversal
ancestors) and of `get_user_details` is a `Group`-kind node of the graph:
every reverse-graph step lands on the source of a forward edge, and every
forward edge originates at a `Group` node. -/
theorem ancestors_are_groups (st : GroupGraph) (G : Digraph) (g u : String)
    (cutoff : Option Nat) (hgood : GoodState st) (hG : st.graph = some G) :
    (∀ d, st.get_group_details g cutoff = .ok d →
      ∀ n, hasDKey d.groups n = true → (("Group", n) : Node) ∈ G.nodes) ∧
    (∀ r st', st.get_user_details u cutoff = .ok (r, st') →
      ∀ n, hasDKey r.groups n = true → (("Group", n) : Node) ∈ G.nodes) := by
  obtain ⟨hrg, hWF, hkinds, hsrc, hpm⟩ := hgood G hG
  constructor
  · intro d hok n hn
    unfold GroupGraph.get_group_details at hok
    rw [hG, hrg] at hok
    split at hok
    · cases hok
    · next paths hp =>
      split at hok
      · cases hok
      · next rpaths hrp =>
        split at hok
        · cases hok
        · next data hff =>
          obtain ⟨e, hmem⟩ := mem_of_hasDKey hn
          rcases reverseFold_mem_groups _ _ rpaths data d hok n e hmem with
            hmem0 | ⟨m, p, role, hmp, hne, hneq, hr, _⟩
          · rw [forwardFold_groups _ _ paths _ data hff] at hmem0
            cases hmem0
          · have hval := sssp_entries G.reverse ("Group", g) cutoff rpaths hrp (m, p) hmp
            obtain ⟨_, _, _, hdisj⟩ := hval
            rcases hdisj with ⟨h1, _⟩ | ⟨q, u', hq, hsucc⟩
            · exact absurd h1 hne
            · obtain ⟨rr, hrr⟩ := succs_reverse.mp hsucc
              have hm1 : m.1 = "Group" := hsrc _ hrr
              have hmn : m ∈ G.nodes := (hWF _ hrr).1
              have : m = (("Group" : String), n) := by
                obtain ⟨m1, m2⟩ := m
                simp only at hm1 hneq
                rw [hm1, ← hneq]
              exact this ▸ hmn
  · intro r st' hok n hn
    unfold GroupGraph.get_user_details at hok
    rw [hrg] at hok
    split at hok
    · cases hok
    · next rpaths hrp =>
      split at hok
      · cases hok
      · next gs perms pm' huf =>
        injection hok with hok
        injection hok with h1 h2
        have hgs : hasDKey gs n = true := by
          rw [← h1] at hn
          exact hn
        rcases userFold_key_src _ _ rpaths [] [] _ gs perms pm' huf n hgs with
          h0 | ⟨m, p, hmp, hne, hneq⟩
        · cases h0
        · have hval := sssp_entries G.reverse ("User", u) cutoff rpaths hrp (m, p) hmp
          obtain ⟨_, _, _, hdisj⟩ := hval
          rcases hdisj with ⟨h1', _⟩ | ⟨q, u', hq, hsucc⟩
          · exact absurd h1' hne
          · obtain ⟨rr, hrr⟩ := succs_reverse.mp hsucc
            have hm1 : m.1 = "Group" := hsrc _ hrr
            have hmn : m ∈ G.nodes := (hWF _ hrr).1
            have : m = (("Group" : String), n) := by
              obtain ⟨m1, m2⟩ := m
              simp only at hm1 hneq
              rw [hm1, hneq]
            exact this ▸ hmn

theorem ancestors_are_groups_witness :
    (∀ d, stBC.get_group_details "c" none = .ok d →
      ∀ n, hasDKey d.groups n = true →
        (("Group", n) : Node) ∈ (graphFromDb dbBC).nodes) ∧
    (∀ r st', stBC.get_user_details "u" none = .ok (r, st') →
      ∀ n, hasDKey r.groups n = true →
        (("Group", n) : Node) ∈ (graphFromDb dbBC).nodes) :=
  ancestors_are_groups stBC (graphFromDb dbBC) "c" "u" none
    (goodState_update GroupGraph.init dbBC goodState_init) rfl

theorem getD_map_snd (p : List Node) (i : Nat) (hi : i < p.length) (d : Node) :
    (p.map (fun x => x.2)).getD i "" = (p.getD i d).2 := by
  rw [List.getD_eq_getElem?_getD, List.getD_eq_getElem?_getD, List.getElem?_map]
  cases hp : p[i]? with
  | none =>
    rw [List.getElem?_eq_none_iff] at hp
    omega
  | some x => simp

/-- The role a reverse-traversal loop reads for a non-trivial entry is
realized by a forward edge *out of* the discovered ancestor into the
penultimate node of the recorded path — the terminal edge of the path. -/
theorem reverse_entry_terminal (G : Digraph) (origin m : Node) (p : List Node)
    (role : Nat) (hval : ValidEntry G.reverse origin (m, p)) (hm : m ≠ origin)
    (hsrc : ∀ e ∈ G.edges, e.1.1 = "Group")
    (hr : G.reverse.edgeRole (p.getD (p.length - 2) origin) m = some role) :
    m.1 = "Group" ∧
      ∃ v, G.edgeRole m v = some role ∧
        v.2 = (p.map (fun x => x.2)).getD (p.length - 2) "" := by
  have hlen := validEntry_len2 hval hm
  obtain ⟨v, hv, hsucc⟩ := validEntry_penult hval hm origin
  dsimp only at hv hsucc hlen
  constructor
  · obtain ⟨rr, hrr⟩ := succs_reverse.mp hsucc
    exact hsrc _ hrr
  · refine ⟨v, ?_, ?_⟩
    · rw [hv] at hr
      rw [← edgeRole_reverse G v m]
      exact hr
    · rw [getD_map_snd p (p.length - 2) (by omega) origin, hv]

/-- C1 (corrected): the forward members search of `get_group_details` does
report the role of the edge adjacent to the queried origin (the edge from
the origin to the second node of the path), but the reverse ancestors
searches — in `get_group_details` and in `get_user_details` — report the
role of the *terminal* edge at the far end of the path: the forward edge
from the reported ancestor to the penultimate node.  The two coincide only
at distance 1. -/
theorem role_edges_amended (st : GroupGraph) (G : Digraph) (g u : String)
    (cutoff : Option Nat) (hgood : GoodState st) (hG : st.graph = some G) :
    (∀ d, st.get_group_details g cutoff = .ok d →
      (∀ n e, (n, e) ∈ d.users ++ d.subgroups →
        2 ≤ e.path.length ∧
          ∃ v r, G.edgeRole ("Group", g) v = some r ∧ e.role = r ∧
            e.rolename = GROUP_EDGE_ROLES.getD r "" ∧ v.2 = e.path.getD 1 "") ∧
      (∀ n e, (n, e) ∈ d.groups →
        ∃ v r, G.edgeRole ("Group", n) v = some r ∧ e.role = r ∧
          e.rolename = GROUP_EDGE_ROLES.getD r "" ∧
          v.2 = e.path.getD (e.path.length - 2) "")) ∧
    (∀ r st', st.get_user_details u cutoff = .ok (r, st') →
      ∀ n e, (n, e) ∈ r.groups →
        ∃ v ro, G.edgeRole ("Group", n) v = some ro ∧ e.role = ro ∧
          e.rolename = GROUP_EDGE_ROLES.getD ro "" ∧
          v.2 = e.path.getD (e.path.length - 2) "") := by
  obtain ⟨hrg, hWF, hkinds, hsrc, _⟩ := hgood G hG
  constructor
  · intro d hok
    unfold GroupGraph.get_group_details at hok
    rw [hG, hrg] at hok
    simp only [Option.getD_some] at hok
    split at hok
    · cases hok
    · next paths hp =>
      split at hok
      · cases hok
      · next rpaths hrp =>
        split at hok
        · cases hok
        · next data hff =>
          obtain ⟨husers, hsub⟩ :=
            reverseFold_users_subgroups G.reverse ("Group", g) rpaths data d hok
          constructor
          · intro n e hmem
            rcases List.mem_append.mp hmem with hmem | hmem
            · rw [husers] at hmem
              rcases forwardFold_mem_users G ("Group", g) paths _ data hff n e hmem with
                h0 | ⟨p, role, hmp, hne, hrole, he⟩
              · cases h0
              · have hval := sssp_entries G ("Group", g) cutoff paths hp _ hmp
                obtain ⟨b, tl, hpshape, hb⟩ := validEntry_shape hval hne
                dsimp only at hpshape
                have hplen : 2 ≤ p.length := by
                  rw [hpshape]
                  simp only [List.length_cons]
                  omega
                refine ⟨?_, p.getD 1 ("Group", g), role, hrole, ?_, ?_, ?_⟩
                · rw [he]
                  unfold mkPathEntry
                  simpa using hplen
                · rw [he]
                  rfl
                · rw [he]
                  rfl
                · rw [he]
                  exact (getD_map_snd p 1 (by omega) ("Group", g)).symm
            · rw [hsub] at hmem
              rcases forwardFold_mem_subgroups G ("Group", g) paths _ data hff n e hmem with
                h0 | ⟨p, role, hmp, hne, hrole, he⟩
              · cases h0
              · have hval := sssp_entries G ("Group", g) cutoff paths hp _ hmp
                obtain ⟨b, tl, hpshape, hb⟩ := validEntry_shape hval hne
                dsimp only at hpshape
                have hplen : 2 ≤ p.length := by
                  rw [hpshape]
                  simp only [List.length_cons]
                  omega
                refine ⟨?_, p.getD 1 ("Group", g), role, hrole, ?_, ?_, ?_⟩
                · rw [he]
                  unfold mkPathEntry
                  simpa using hplen
                · rw [he]
                  rfl
                · rw [he]
                  rfl
                · rw [he]
                  exact (getD_map_snd p 1 (by omega) ("Group", g)).symm
          · intro n e hmem
            rcases reverseFold_mem_groups G.reverse ("Group", g) rpaths data d hok n e hmem with
              hmem0 | ⟨m, p, role, hmp, hne, hneq, hrole, he⟩
            · rw [forwardFold_groups G ("Group", g) paths _ data hff] at hmem0
              cases hmem0
            · have hval := sssp_entries G.reverse ("Group", g) cutoff rpaths hrp _ hmp
              obtain ⟨hm1, v, hv, hv2⟩ :=
                reverse_entry_terminal G ("Group", g) m p role hval hne hsrc hrole
              have hmeq : m = (("Group" : String), n) := by
                obtain ⟨m1, m2⟩ := m
                simp only at hm1 hneq
                rw [hm1, ← hneq]
              refine ⟨v, role, hmeq ▸ hv, ?_, ?_, ?_⟩
              · rw [he]
                rfl
              · rw [he]
                rfl
              · rw [he]
                show v.2 = (p.map (fun x => x.2)).getD
                  ((p.map (fun x => x.2)).length - 2) ""
                rw [List.length_map]
                exact hv2
  · intro r st' hok n e hmem
    unfold GroupGraph.get_user_details at hok
    rw [hrg] at hok
    simp only [Option.getD_some] at hok
    split at hok
    · cases hok
    · next rpaths hrp =>
      split at hok
      · cases hok
      · next gs perms pm' huf =>
        injection hok with hok
        injection hok with h1 h2
        have hmem' : (n, e) ∈ gs := by
          rw [← h1] at hmem
          exact hmem
        rcases userFold_mem_groups G.reverse ("User", u) rpaths [] [] _ gs perms pm'
            huf n e hmem' with
          h0 | ⟨m, p, role, hmp, hne, hneq, hrole, he⟩
        · cases h0
        · have hval := sssp_entries G.reverse ("User", u) cutoff rpaths hrp _ hmp
          obtain ⟨hm1, v, hv, hv2⟩ :=
            reverse_entry_terminal G ("User", u) m p role hval hne hsrc hrole
          have hmeq : m = (("Group" : String), n) := by
            obtain ⟨m1, m2⟩ := m
            simp only at hm1 hneq
            rw [hm1, ← hneq]
          refine ⟨v, role, hmeq ▸ hv, ?_, ?_, ?_⟩
          · rw [he]
            rfl
          · rw [he]
            rfl
          · rw [he]
            show v.2 = (p.map (fun x => x.2)).getD
              ((p.map (fun x => x.2)).length - 2) ""
            rw [List.length_map]
            exact hv2

theorem role_edges_amended_witness :
    (∀ d, stBC.get_group_details "c" none = .ok d →
      (∀ n e, (n, e) ∈ d.users ++ d.subgroups →
        2 ≤ e.path.length ∧
          ∃ v r, (graphFromDb dbBC).edgeRole ("Group", "c") v = some r ∧
            e.role = r ∧ e.rolename = GROUP_EDGE_ROLES.getD r "" ∧
            v.2 = e.path.getD 1 "") ∧
      (∀ n e, (n, e) ∈ d.groups →
        ∃ v r, (graphFromDb dbBC).edgeRole ("Group", n) v = some r ∧
          e.role = r ∧ e.rolename = GROUP_EDGE_ROLES.getD r "" ∧
          v.2 = e.path.getD (e.path.length - 2) "")) ∧
    (∀ r st', stBC.get_user_details "u" none = .ok (r, st') →
      ∀ n e, (n, e) ∈ r.groups →
        ∃ v ro, (graphFromDb dbBC).edgeRole ("Group", n) v = some ro ∧
          e.role = ro ∧ e.rolename = GROUP_EDGE_ROLES.getD ro "" ∧
          v.2 = e.path.getD (e.path.length - 2) "") :=
  role_edges_amended stBC (graphFromDb dbBC) "c" "u" none
    (goodState_update GroupGraph.init dbBC goodState_init) rfl

/-- The result of `stAB.get_user_details "u" none`: both `a1` and `a2`
found at distance 1, and two entries for permission `p`. -/
def rABval : UserDetails :=
  { groups := [("a1", ⟨"a1", ["u", "a1"], 1, 0, "member"⟩),
      ("a2", ⟨"a2", ["u", "a2"], 1, 2, "owner"⟩)],
    permissions := [⟨"p", "x", "a1"⟩, ⟨"p", "y", "a2"⟩] }

theorem forward_hyp_of_entries (G : Digraph) (origin : Node) (L : Paths)
    (hWF : G.WF) (hkinds : ∀ n ∈ G.nodes, n.1 = "User" ∨ n.1 = "Group")
    (hval : ∀ x ∈ L, ValidEntry G origin x) :
    ∀ m p, ((m, p) : Node × List Node) ∈ L → m ≠ origin →
      (m.1 = "User" ∨ m.1 = "Group") ∧
        ∃ r, G.edgeRole origin (p.getD 1 origin) = some r := by
  intro m p hmp hne
  have hv := hval (m, p) hmp
  obtain ⟨b, tl, hp, hb⟩ := validEntry_shape hv hne
  dsimp only at hp
  constructor
  · obtain ⟨_, _, _, hdisj⟩ := hv
    rcases hdisj with ⟨h1, _⟩ | ⟨q, u', hq, hsucc⟩
    · exact absurd h1 hne
    · obtain ⟨rr, hrr⟩ := mem_succs.mp hsucc
      exact hkinds m (hWF _ hrr).2
  · have hgd : p.getD 1 origin = b := by
      rw [hp]
      rfl
    rw [hgd]
    exact edgeRole_isSome_of_mem_succs hb

theorem reverse_hyp_of_entries (rG : Digraph) (origin : Node) (L : Paths)
    (hval : ∀ x ∈ L, ValidEntry rG origin x) :
    ∀ m p, ((m, p) : Node × List Node) ∈ L → m ≠ origin →
      ∃ r, rG.edgeRole (p.getD (p.length - 2) origin) m = some r := by
  intro m p hmp hne
  obtain ⟨v, hv, hsucc⟩ := validEntry_penult (hval (m, p) hmp) hne origin
  dsimp only at hv hsucc
  rw [hv]
  exact edgeRole_isSome_of_mem_succs hsucc

theorem stepSuccs_one_len (s : Node) (ws : List Node) :
    ∀ x ∈ (stepSuccs [(s, [s])] [] [s] ws).1, x.2.length ≤ 2 := by
  obtain ⟨D, h1, _, h3, _⟩ := stepSuccs_spec [s] ws [(s, [s])] []
  intro x hx
  rw [h1] at hx
  rcases List.mem_append.mp hx with hx | hx
  · rcases List.mem_singleton.mp hx with rfl
    simp
  · obtain ⟨_, hx2, _⟩ := h3 x hx
    rw [hx2]
    simp

/-- C9: for a group present in the snapshot, the cutoff-1 query succeeds,
the unbounded query succeeds, the users found under cutoff 1 are a subset
of those found with no cutoff, every entry of the cutoff-1 result is at
distance ≤ 1, and the unbounded forward traversal reaches every node
reachable from the origin (each such node appears in `users` or
`subgroups` according to its kind). -/
theorem cutoff_subset_complete (st : GroupGraph) (G : Digraph) (g : String)
    (hgood : GoodState st) (hG : st.graph = some G)
    (hg : (("Group", g) : Node) ∈ G.nodes) :
    ∃ d1 dAll, st.get_group_details g (some 1) = .ok d1 ∧
      st.get_group_details g none = .ok dAll ∧
      (∀ n, hasDKey d1.users n = true → hasDKey dAll.users n = true) ∧
      (∀ n e, (n, e) ∈ d1.users ++ d1.groups ++ d1.subgroups →
        e.distance ≤ 1) ∧
      (∀ v, Reach G ("Group", g) v → v ≠ (("Group", g) : Node) →
        (v.1 = "User" → hasDKey dAll.users v.2 = true) ∧
        (v.1 = "Group" → hasDKey dAll.subgroups v.2 = true)) := by
  obtain ⟨hrg, hWF, hkinds, hsrc, _⟩ := hgood G hG
  have hWFr : G.reverse.WF := reverse_WF hWF
  have hgr : (("Group", g) : Node) ∈ G.reverse.nodes := hg
  have hp1 : sssp (some G) ("Group", g) (some 1) =
      .ok (stepSuccs [(("Group", g), [("Group", g)])] [] [("Group", g)]
        (G.succs ("Group", g))).1 := sssp_cutoff1 G _ hg
  have hrp1 : sssp (some G.reverse) ("Group", g) (some 1) =
      .ok (stepSuccs [(("Group", g), [("Group", g)])] [] [("Group", g)]
        (G.reverse.succs ("Group", g))).1 := sssp_cutoff1 G.reverse _ hgr
  have hval1 := sssp_entries G ("Group", g) (some 1) _ hp1
  have hrval1 := sssp_entries G.reverse ("Group", g) (some 1) _ hrp1
  obtain ⟨data1, hff1⟩ := forwardFold_ok G ("Group", g) _
    (forward_hyp_of_entries G ("Group", g) _ hWF hkinds hval1) ⟨[], [], []⟩
  obtain ⟨d1, hrf1⟩ := reverseFold_ok G.reverse ("Group", g) _
    (reverse_hyp_of_entries G.reverse ("Group", g) _ hrval1) data1
  obtain ⟨pAll, hpAll, hmemAll, hvalAll, hclosedAll, hreachAll⟩ :=
    sssp_none_ok G ("Group", g) hWF hg
  obtain ⟨rpAll, hrpAll, _, hrvalAll, _, _⟩ :=
    sssp_none_ok G.reverse ("Group", g) hWFr hgr
  obtain ⟨dataAll, hffAll⟩ := forwardFold_ok G ("Group", g) _
    (forward_hyp_of_entries G ("Group", g) _ hWF hkinds hvalAll) ⟨[], [], []⟩
  obtain ⟨dAll, hrfAll⟩ := reverseFold_ok G.reverse ("Group", g) _
    (reverse_hyp_of_entries G.reverse ("Group", g) _ hrvalAll) dataAll
  obtain ⟨hu1, hs1⟩ :=
    reverseFold_users_subgroups G.reverse ("Group", g) _ data1 d1 hrf1
  obtain ⟨huAll, hsAll⟩ :=
    reverseFold_users_subgroups G.reverse ("Group", g) _ dataAll dAll hrfAll
  refine ⟨d1, dAll, ?_, ?_, ?_, ?_, ?_⟩
  · unfold GroupGraph.get_group_details
    rw [hG, hrg]
    simp only [Option.getD_some]
    simp only [hp1, hrp1, hff1, hrf1]
  · unfold GroupGraph.get_group_details
    rw [hG, hrg]
    simp only [Option.getD_some]
    simp only [hpAll, hrpAll, hffAll, hrfAll]
  · intro n hn
    obtain ⟨e, hmem⟩ := mem_of_hasDKey hn
    rw [hu1] at hmem
    rcases forwardFold_mem_users G ("Group", g) _ _ data1 hff1 n e hmem with
      h0 | ⟨p, role, hmp, hne, _, _⟩
    · cases h0
    · have hentry : (((("User" : String), n) : Node), p) ∈ pAll := by
        have hstep := sssp_none_step G ("Group", g) hg
        rw [hstep] at hpAll
        obtain ⟨D, hD⟩ := ssspLoop_mono G none _ _ _ _ _ hpAll
        rw [hD]
        exact List.mem_append.mpr (Or.inl hmp)
      have hcomp := forwardFold_complete G ("Group", g) _ _ dataAll hffAll
        ("User", n) p hentry hne
      rw [huAll]
      exact hcomp.1 rfl
  · intro n e hmem
    rcases List.mem_append.mp hmem with hmem | hmem
    · rcases List.mem_append.mp hmem with hmem | hmem
      · rw [hu1] at hmem
        rcases forwardFold_mem_users G ("Group", g) _ _ data1 hff1 n e hmem with
          h0 | ⟨p, role, hmp, hne, _, he⟩
        · cases h0
        · have hlen := stepSuccs_one_len ("Group", g) (G.succs ("Group", g))
            _ hmp
          rw [he]
          unfold mkPathEntry
          dsimp only at hlen ⊢
          omega
      · rcases reverseFold_mem_groups G.reverse ("Group", g) _ data1 d1 hrf1
            n e hmem with
          h0 | ⟨m, p, role, hmp, hne, hneq, hrole, he⟩
        · rw [forwardFold_groups G ("Group", g) _ _ data1 hff1] at h0
          cases h0
        · have hlen := stepSuccs_one_len ("Group", g)
            (G.reverse.succs ("Group", g)) _ hmp
          rw [he]
          unfold mkPathEntry
          dsimp only at hlen ⊢
          omega
    · rw [hs1] at hmem
      rcases forwardFold_mem_subgroups G ("Group", g) _ _ data1 hff1 n e hmem with
        h0 | ⟨p, role, hmp, hne, _, he⟩
      · cases h0
      · have hlen := stepSuccs_one_len ("Group", g) (G.succs ("Group", g))
          _ hmp
        rw [he]
        unfold mkPathEntry
        dsimp only at hlen ⊢
        omega
  · intro v hreach hne
    have hkey : hasPath pAll v = true := hreachAll v hreach
    obtain ⟨p, hp⟩ := mem_of_hasPath hkey
    have hcomp := forwardFold_complete G ("Group", g) _ _ dataAll hffAll
      v p hp hne
    constructor
    · intro hk
      rw [huAll]
      exact hcomp.1 hk
    · intro hk
      rw [hsAll]
      exact hcomp.2 hk

theorem cutoff_subset_complete_witness :
    ∃ d1 dAll, stBC.get_group_details "c" (some 1) = .ok d1 ∧
      stBC.get_group_details "c" none = .ok dAll ∧
      (∀ n, hasDKey d1.users n = true → hasDKey dAll.users n = true) ∧
      (∀ n e, (n, e) ∈ d1.users ++ d1.groups ++ d1.subgroups →
        e.distance ≤ 1) ∧
      (∀ v, Reach (graphFromDb dbBC) ("Group", "c") v →
        v ≠ (("Group", "c") : Node) →
        (v.1 = "User" → hasDKey dAll.users v.2 = true) ∧
        (v.1 = "Group" → hasDKey dAll.subgroups v.2 = true)) :=
  cutoff_subset_complete stBC (graphFromDb dbBC) "c"
    (goodState_update GroupGraph.init dbBC goodState_init) rfl (by decide)


/-- Traversing the annotation loop appends, in traversal order, exactly the
`permissions_metadata` entry of every non-origin ancestor processed: the
accumulated permission list equals the initial one followed by the
concatenation of the per-ancestor grant lists read from the initial dict. -/
theorem userFold_perms_eq (rG : Digraph) (origin : Node) :
    ∀ (L : List (Node × List Node)) (gs : List (String × PathEntry))
      (ps : List MappedPermission) (pm : PermDict)
      (gs' : List (String × PathEntry)) (ps' : List MappedPermission)
      (pm' : PermDict),
      userFold rG origin L gs ps pm = .ok (gs', ps', pm') →
      ps' = ps ++ (L.filter (fun x => ! decide (x.1 = origin))).flatMap
        (fun x => ddGet pm (.strKey x.1.2)) := by
  intro L
  induction L with
  | nil =>
    intro gs ps pm gs' ps' pm' h
    injection h with h
    injection h with h1 h2
    injection h2 with h2 h3
    rw [← h2]
    simp
  | cons y rest ih =>
    intro gs ps pm gs' ps' pm' h
    obtain ⟨m, p⟩ := y
    simp only [userFold] at h
    by_cases hm : m = origin
    · rw [if_pos hm] at h
      have heq := ih gs ps pm gs' ps' pm' h
      rw [heq]
      simp [List.filter_cons, hm]
    · rw [if_neg hm] at h
      split at h
      · cases h
      · next role hrole =>
        have heq := ih _ _ _ gs' ps' pm' h
        have hfun : (fun x : Node × List Node =>
            ddGet (ddTouch pm (.strKey m.2)) (.strKey x.1.2)) =
            (fun x : Node × List Node => ddGet pm (.strKey x.1.2)) := by
          funext x
          rw [ddGet_ddTouch]
        rw [hfun] at heq
        rw [heq, List.filter_cons]
        simp [hm, List.append_assoc]

/-- Keys of the accumulated `groups` dict are never dropped by the
annotation loop. -/
theorem userFold_keymono (rG : Digraph) (origin : Node) :
    ∀ (L : List (Node × List Node)) (gs : List (String × PathEntry))
      (ps : List MappedPermission) (pm : PermDict)
      (gs' : List (String × PathEntry)) (ps' : List MappedPermission)
      (pm' : PermDict),
      userFold rG origin L gs ps pm = .ok (gs', ps', pm') →
      ∀ n, hasDKey gs n = true → hasDKey gs' n = true := by
  intro L
  induction L with
  | nil =>
    intro gs ps pm gs' ps' pm' h n hn
    injection h with h
    injection h with h1 h2
    exact h1 ▸ hn
  | cons y rest ih =>
    intro gs ps pm gs' ps' pm' h n hn
    obtain ⟨m, p⟩ := y
    simp only [userFold] at h
    by_cases hm : m = origin
    · rw [if_pos hm] at h
      exact ih gs ps pm gs' ps' pm' h n hn
    · rw [if_neg hm] at h
      split at h
      · cases h
      · next role hrole =>
        refine ih _ _ _ gs' ps' pm' h n ?_
        rw [hasDKey_dictInsert, hn]
        rfl

/-- Every non-origin entry of the traversed list ends up keyed (by node
name) in the accumulated `groups` dict. -/
theorem userFold_key_complete (rG : Digraph) (origin : Node) :
    ∀ (L : List (Node × List Node)) (gs : List (String × PathEntry))
      (ps : List MappedPermission) (pm : PermDict)
      (gs' : List (String × PathEntry)) (ps' : List MappedPermission)
      (pm' : PermDict),
      userFold rG origin L gs ps pm = .ok (gs', ps', pm') →
      ∀ m p, ((m, p) : Node × List Node) ∈ L → m ≠ origin →
        hasDKey gs' m.2 = true := by
  intro L
  induction L with
  | nil =>
    intro gs ps pm gs' ps' pm' h m p hmp hne
    exact absurd hmp (List.not_mem_nil _)
  | cons y rest ih =>
    intro gs ps pm gs' ps' pm' h m p hmp hne
    obtain ⟨m0, p0⟩ := y
    simp only [userFold] at h
    by_cases hm0 : m0 = origin
    · rw [if_pos hm0] at h
      rcases List.mem_cons.mp hmp with heq | hmp'
      · injection heq with heq1 heq2
        subst heq1
        exact absurd hm0 hne
      · exact ih gs ps pm gs' ps' pm' h m p hmp' hne
    · rw [if_neg hm0] at h
      split at h
      · cases h
      · next role hrole =>
        rcases List.mem_cons.mp hmp with heq | hmp'
        · injection heq with heq1 heq2
          subst heq1
          exact userFold_keymono rG origin rest _ _ _ gs' ps' pm' h m.2
            (hasDKey_dictInsert_self gs m.2 _)
        · exact ih _ _ _ gs' ps' pm' h m p hmp' hne


/-- C8: in a good snapshot, a successful `get_user_details(u, cutoff)` call
aggregates permissions over exactly the ancestor groups found by the reverse
BFS: there is a traversal result `rpaths` such that (a) the returned
`permissions` list is precisely the concatenation, in traversal order, of the
`permissions_metadata` grant list of every non-origin traversal entry, each
grant projected to its `(permission, argument, groupname)` triple — every
direct grant of every found ancestor appears, nothing else does, and nothing
is deduplicated; (b) the returned `groups` dict keys are exactly the names of
the non-origin traversal entries; and (c) consequently, when two distinct
ancestor groups hold grants of the same permission name, both tagged entries
appear in the output and remain distinguishable by their `groupname` tags. -/
theorem user_permissions_union (st : GroupGraph) (G : Digraph) (u : String)
    (cutoff : Option Nat) (r : UserDetails) (st' : GroupGraph)
    (hgood : GoodState st) (hG : st.graph = some G)
    (hok : st.get_user_details u cutoff = .ok (r, st')) :
    ∃ rpaths, sssp st.rgraph ("User", u) cutoff = .ok rpaths ∧
      r.permissions =
        (rpaths.filter
          (fun x => ! decide (x.1 = ((("User" : String), u) : Node)))).flatMap
          (fun x => (ddGet st.permissions_metadata (.strKey x.1.2)).map
            (fun mp => ⟨mp.permission, mp.argument, mp.groupname⟩)) ∧
      (∀ n, hasDKey r.groups n = true ↔
        ∃ x ∈ rpaths, x.1 ≠ ((("User" : String), u) : Node) ∧ x.1.2 = n) ∧
      (∀ A B p mpA mpB, A ≠ B →
        hasDKey r.groups A = true → hasDKey r.groups B = true →
        mpA ∈ ddGet st.permissions_metadata (.strKey A) →
        mpB ∈ ddGet st.permissions_metadata (.strKey B) →
        mpA.permission = p → mpB.permission = p →
        ((⟨p, mpA.argument, A⟩ : PermOut) ∈ r.permissions ∧
          (⟨p, mpB.argument, B⟩ : PermOut) ∈ r.permissions ∧
          (⟨p, mpA.argument, A⟩ : PermOut) ≠ ⟨p, mpB.argument, B⟩)) := by
  obtain ⟨hrg, hWF, hkinds, hsrc, htags⟩ := hgood G hG
  unfold GroupGraph.get_user_details at hok
  rw [hrg] at hok
  simp only [Option.getD_some] at hok
  split at hok
  · cases hok
  · next rpaths hrp =>
    split at hok
    · cases hok
    · next gs perms pm' huf =>
      injection hok with hok
      injection hok with h1 h2
      have hgroups : r.groups = gs := by rw [← h1]
      have hperm : r.permissions =
          perms.map (fun mp => ⟨mp.permission, mp.argument, mp.groupname⟩) := by
        rw [← h1]
      refine ⟨rpaths, by rw [hrg]; exact hrp, ?_, ?_, ?_⟩
      · have heq := userFold_perms_eq G.reverse ("User", u) rpaths [] [] _
          gs perms pm' huf
        rw [hperm, heq]
        simp only [List.nil_append, List.map_flatMap]
      · intro n
        constructor
        · intro hn
          rw [hgroups] at hn
          rcases userFold_key_src G.reverse ("User", u) rpaths [] [] _
              gs perms pm' huf n hn with h0 | ⟨m, pth, hmp, hne, hneq⟩
          · cases h0
          · exact ⟨(m, pth), hmp, hne, hneq⟩
        · rintro ⟨x, hx, hne, hxn⟩
          rw [hgroups]
          have hk := userFold_key_complete G.reverse ("User", u) rpaths [] [] _
            gs perms pm' huf x.1 x.2 hx hne
          rw [hxn] at hk
          exact hk
      · intro A B p mpA mpB hAB hA hB hmpA hmpB hpA hpB
        obtain ⟨_, haccum⟩ := userFold_perms G.reverse ("User", u) rpaths [] [] _
          gs perms pm' huf
        have hfind : ∀ X (mpX : MappedPermission),
            hasDKey r.groups X = true →
            mpX ∈ ddGet st.permissions_metadata (.strKey X) →
            (⟨mpX.permission, mpX.argument, mpX.groupname⟩ : PermOut) ∈
              r.permissions := by
          intro X mpX hX hmpX
          rw [hgroups] at hX
          rcases userFold_key_src G.reverse ("User", u) rpaths [] [] _
              gs perms pm' huf X hX with h0 | ⟨m, pth, hmp, hne, hneq⟩
          · cases h0
          · have hmem : mpX ∈ perms := by
              refine haccum m pth hmp hne mpX ?_
              rw [hneq]
              exact hmpX
            rw [hperm]
            exact List.mem_map.mpr ⟨mpX, hmem, rfl⟩
        have htagA : mpA.groupname = A := htags A mpA hmpA
        have htagB : mpB.groupname = B := htags B mpB hmpB
        refine ⟨?_, ?_, ?_⟩
        · have hin := hfind A mpA hA hmpA
          rw [hpA, htagA] at hin
          exact hin
        · have hin := hfind B mpB hB hmpB
          rw [hpB, htagB] at hin
          exact hin
        · intro hcontra
          injection hcontra with hc1 hc2 hc3
          exact hAB hc3


theorem user_permissions_union_witness :
    (∃ rpaths, sssp stAB.rgraph ("User", "u") none = .ok rpaths ∧
      rABval.permissions =
        (rpaths.filter
          (fun x => ! decide (x.1 = ((("User" : String), "u") : Node)))).flatMap
          (fun x => (ddGet stAB.permissions_metadata (.strKey x.1.2)).map
            (fun mp => ⟨mp.permission, mp.argument, mp.groupname⟩)) ∧
      (∀ n, hasDKey rABval.groups n = true ↔
        ∃ x ∈ rpaths, x.1 ≠ ((("User" : String), "u") : Node) ∧ x.1.2 = n) ∧
      (∀ A B p mpA mpB, A ≠ B →
        hasDKey rABval.groups A = true → hasDKey rABval.groups B = true →
        mpA ∈ ddGet stAB.permissions_metadata (.strKey A) →
        mpB ∈ ddGet stAB.permissions_metadata (.strKey B) →
        mpA.permission = p → mpB.permission = p →
        ((⟨p, mpA.argument, A⟩ : PermOut) ∈ rABval.permissions ∧
          (⟨p, mpB.argument, B⟩ : PermOut) ∈ rABval.permissions ∧
          (⟨p, mpA.argument, A⟩ : PermOut) ≠ ⟨p, mpB.argument, B⟩))) ∧
    ((⟨"p", "x", "a1"⟩ : PermOut) ∈ rABval.permissions ∧
      (⟨"p", "y", "a2"⟩ : PermOut) ∈ rABval.permissions ∧
      (⟨"p", "x", "a1"⟩ : PermOut) ≠ ⟨"p", "y", "a2"⟩) := by
  have h := user_permissions_union stAB (graphFromDb dbAB) "u" none rABval stAB
    (goodState_update GroupGraph.init dbAB goodState_init) rfl (by decide)
  refine ⟨h, ?_⟩
  obtain ⟨rpaths, hrp, heq, hiff, hdup⟩ := h
  exact hdup "a1" "a2" "p" ⟨"p", "x", "a1", 5⟩ ⟨"p", "y", "a2", 6⟩ (by decide)
    (by decide) (by decide) (by decide) (by decide) rfl rfl

end Grouper
